import Mathlib

/-!
# Verification of the TFT aggregation engine (src/aggregate.ts)

Shallow embedding of the aggregation core of the repository:
`normalizePatch`, `compSignature`, `unitSet`, `combosOf3`,
`aggregateCountsAndCombos`, `finalizeComps`, `finalizeUnitCombos`,
`mergeCompBuckets`, `mergeUnitCombos`.

Modelling choices (all forced by the JavaScript/TypeScript source):
* JavaScript `Map` objects are modelled as insertion-ordered association
  lists `List (String × α)`; `Map.get` is `alGet` (first matching key),
  `Map.set` is `alSet` (replace in place, else append) — exactly the
  observable behaviour of the `Map` insertion-order semantics.
* Item keys (`number | string`) are modelled as the strings they are
  unconditionally coerced to (`String(it)`, `.map(String)`) at every use
  site in the source.
* `placement` (a possibly-absent number) is `Option Nat`; the source uses
  `p.placement ?? 9` and `p.placement === 1`.
* JavaScript `Array.prototype.sort` (required to be stable) is modelled by
  the stable `List.insertionSort`; the comparator `(a,b) => …` is
  translated to the corresponding `≤`-style relation.
* Counts are natural numbers: the source only ever adds non-negative
  quantities to fields initialised at `0`.
* `toFixed(n)` decimal rounding is modelled over `ℚ` as rounding to `n`
  decimal digits (`round2` / `round1`); binary-floating-point corner cases
  of `toFixed` are abstracted, no claim below depends on them.
-/

set_option maxHeartbeats 1600000

namespace TFT

/-- `type Unit = { character_id: string; items: ItemKey[] }` with items
already coerced to strings. -/
structure Unit where
  character_id : String
  items : List String
  deriving DecidableEq, Repr

/-- `type Participant = { placement: number; units: Unit[] }`; `placement`
may be absent in the raw data (`p.placement ?? 9`). -/
structure Participant where
  placement : Option Nat
  units : List Unit
  deriving DecidableEq, Repr

/-- `type MatchInfo = { game_version: string; participants: Participant[] }`;
`game_version` may be absent (`normalizePatch` guards with `v?.`). -/
structure MatchInfo where
  game_version : Option String
  participants : List Participant
  deriving DecidableEq, Repr

/-! ## normalizePatch

`const m = v?.match?.(/(\d+)\.(\d+)/); return m ? `${m[1]}.${m[2]}` : v ?? "unknown";`

`findPatch` implements the regex search: at each start position the match
attempt succeeds iff the maximal digit run is non-empty and is followed by
`'.'` and at least one digit (backtracking the greedy `\d+` can never help
because a shorter run is followed by a digit, not `'.'`). -/

/-- Search for the first (leftmost) match of `(\d+)\.(\d+)`; returns the two
captured digit groups. -/
def findPatch : List Char → Option (List Char × List Char)
  | [] => none
  | c :: cs =>
    if c.isDigit then
      match (c :: cs).dropWhile Char.isDigit with
      | d :: cs2 =>
        if d = '.' ∧ cs2.takeWhile Char.isDigit ≠ [] then
          some ((c :: cs).takeWhile Char.isDigit, cs2.takeWhile Char.isDigit)
        else findPatch cs
      | [] => findPatch cs
    else findPatch cs

/-- `normalizePatch` from `src/aggregate.ts` (the copy in `src/collector.ts`
is textually identical).  `none` models a null/undefined `v`. -/
def normalizePatch : Option String → String
  | none => "unknown"
  | some v =>
    match findPatch v.data with
    | some (a, b) => String.mk a ++ "." ++ String.mk b
    | none => v

/-! ## Composition signature and unit set -/

/-- Lexicographic comparison of character lists by code point, the order
JS string comparison uses. -/
def strLEb : List Char → List Char → Bool
  | [], _ => true
  | _ :: _, [] => false
  | a :: as, b :: bs =>
    if a.toNat < b.toNat then true
    else if b.toNat < a.toNat then false
    else strLEb as bs

/-- The (non-strict) JS string order as a relation. -/
def strLE (a b : String) : Prop :=
  strLEb a.data b.data = true

instance : DecidableRel strLE := fun _ _ => by unfold strLE; infer_instance

/-- JS default `Array.prototype.sort` on strings (stable; lexicographic by
code units), modelled by the stable insertion sort over `strLE`. -/
def sortStrings (l : List String) : List String :=
  l.insertionSort strLE

/-- `[...new Set(l)]`: deduplication keeping first occurrences, in order. -/
def dedupFirst (l : List String) : List String :=
  go [] l
where
  /-- `go seen l` drops elements already in `seen`. -/
  go (seen : List String) : List String → List String
    | [] => []
    | x :: xs => if x ∈ seen then go seen xs else x :: go (x :: seen) xs

/-- The per-unit entry of the signature:
`u.character_id + ":" + [...items].map(String).sort().join(".")`. -/
def unitEntry (u : Unit) : String :=
  u.character_id ++ ":" ++ String.intercalate "." (sortStrings u.items)

/-- `compSignature`: units + their item multiset (source comment:
"so forks like AD/AP split"); per-unit strings sorted and joined by `"|"`. -/
def compSignature (units : List Unit) : String :=
  String.intercalate "|" (sortStrings (units.map unitEntry))

/-- `unitSet`: `[...new Set(units.map(u => u.character_id))].sort()`. -/
def unitSet (units : List Unit) : List String :=
  sortStrings (dedupFirst (units.map (·.character_id)))

/-! ## combosOf3 -/

/-- All ordered pairs `(l[j], l[k])` with `j < k`, in loop order. -/
def pairsOf : List String → List (String × String)
  | [] => []
  | x :: xs => (xs.map (fun y => (x, y))) ++ pairsOf xs

/-- All ordered triples `(l[i], l[j], l[k])` with `i < j < k`, in loop order. -/
def triplesOf : List String → List (String × String × String)
  | [] => []
  | x :: xs => ((pairsOf xs).map (fun p => (x, p.1, p.2))) ++ triplesOf xs

/-- `combosOf3`: unique sorted items, then all `i<j<k` triples joined by `"|"`. -/
def combosOf3 (items : List String) : List String :=
  let uniq := sortStrings (dedupFirst items)
  (triplesOf uniq).map (fun t => t.1 ++ "|" ++ t.2.1 ++ "|" ++ t.2.2)

/-! ## Association lists: the `Map` model -/

/-- `Map.get`: value at the first matching key. -/
def alGet {α : Type} : List (String × α) → String → Option α
  | [], _ => none
  | p :: t, k => if p.1 = k then some p.2 else alGet t k

/-- `Map.set`: replace the value in place, else append at the end. -/
def alSet {α : Type} : List (String × α) → String → α → List (String × α)
  | [], k, v => [(k, v)]
  | p :: t, k, v => if p.1 = k then (p.1, v) :: t else p :: alSet t k v

/-- `ItemCount = Map<string, number>` (item id → count). -/
abbrev ItemCount := List (String × Nat)

/-- `UnitBag = Map<string, ItemCount>` (character_id → item counts). -/
abbrev UnitBag := List (String × ItemCount)

/-- `function inc(map, k, v = 1) { map.set(k, (map.get(k)||0)+v); }`
(the default `v = 1` is passed explicitly at the call sites). -/
def inc (map : ItemCount) (k : String) (v : Nat) : ItemCount :=
  alSet map k ((alGet map k).getD 0 + v)

/-- `CompCounts` bucket (one per `patch::signature` key). -/
structure CompCounts where
  patch : String
  comp_key : String
  picks : Nat
  wins : Nat
  sumPlacement : Nat
  units : UnitBag
  unit_set : List String
  deriving DecidableEq, Repr

/-- `ComboCounts = { picks, wins, sumPlacement }`. -/
structure ComboCounts where
  picks : Nat
  wins : Nat
  sumPlacement : Nat
  deriving DecidableEq, Repr

/-- The composition-bucket map, keyed by `` `${patch}::${comp_key}` ``. -/
abbrev CompBuckets := List (String × CompCounts)

/-- `UnitComboBag = Map<string, Map<ComboKey, ComboCounts>>`. -/
abbrev UnitComboBag := List (String × List (String × ComboCounts))

/-- Both accumulator maps built by `aggregateCountsAndCombos`. -/
structure AggState where
  compBuckets : CompBuckets
  unitCombos : UnitComboBag
  deriving DecidableEq, Repr

/-! ## Aggregation -/

/-- One unit of work inside the participant loop: the enclosing match's
normalized patch together with one participant's data. -/
structure Slice where
  patch : String
  placement : Option Nat
  units : List Unit
  deriving DecidableEq, Repr

/-- `if (p.placement === 1) … += 1`. -/
def winsInc (s : Slice) : Nat :=
  if s.placement = some 1 then 1 else 0

/-- `p.placement ?? 9`. -/
def placeVal (s : Slice) : Nat :=
  s.placement.getD 9

/-- The bucket key `` `${patch}::${compSignature(units)}` ``. -/
def compKeyOf (s : Slice) : String :=
  s.patch ++ "::" ++ compSignature s.units

/-- Fuel-driven splitter used to model `String.split` (structural recursion
so that concrete witnesses can be evaluated by the kernel). -/
def splitGo (sep : List Char) : Nat → List Char → List Char → List (List Char)
  | 0, cs, acc => [acc.reverse ++ cs]
  | _ + 1, [], acc => [acc.reverse]
  | fuel + 1, c :: rest, acc =>
    if sep.isPrefixOf (c :: rest) then
      acc.reverse :: splitGo sep fuel ((c :: rest).drop sep.length) []
    else
      splitGo sep fuel rest (c :: acc)

/-- `s.split(sep)` for a non-empty separator. -/
def splitStr (s sep : String) : List String :=
  (splitGo sep.data (s.data.length + 1) s.data []).map String.mk

/-- The fresh bucket created when a key is first seen:
`{ patch, comp_key: key.split("::")[1], picks: 0, wins: 0, sumPlacement: 0,
units: new Map(), unit_set: unitSet(units) }`. -/
def freshComp (s : Slice) (key : String) : CompCounts :=
  { patch := s.patch
    comp_key := (splitStr key "::").getD 1 ""
    picks := 0
    wins := 0
    sumPlacement := 0
    units := []
    unit_set := unitSet s.units }

/-- `for (const it of (u.items || [])) inc(itemBag, String(it));` -/
def bumpItems (bag : ItemCount) (items : List String) : ItemCount :=
  items.foldl (fun b it => inc b it 1) bag

/-- The `for (const u of units)` loop updating `bag.units`. -/
def unitsFold (ub : UnitBag) (units : List Unit) : UnitBag :=
  units.foldl
    (fun ub u => alSet ub u.character_id (bumpItems ((alGet ub u.character_id).getD []) u.items))
    ub

/-- The comp-counts update for one slice: fetch-or-create the bucket, bump
`picks`/`wins`/`sumPlacement`, fold the per-unit item counts. -/
def compStep (buckets : CompBuckets) (s : Slice) : CompBuckets :=
  let key := compKeyOf s
  let bag0 := (alGet buckets key).getD (freshComp s key)
  alSet buckets key
    { bag0 with
      picks := bag0.picks + 1
      wins := bag0.wins + winsInc s
      sumPlacement := bag0.sumPlacement + placeVal s
      units := unitsFold bag0.units s.units }

/-- The unit-combo update for one slice: for each unit with at least three
items, bump every 3-combo's counts. -/
def comboStep (uc : UnitComboBag) (s : Slice) : UnitComboBag :=
  s.units.foldl
    (fun uc u =>
      if u.items.length < 3 then uc
      else
        let combos := combosOf3 u.items
        if combos.length = 0 then uc
        else
          let bag0 := (alGet uc u.character_id).getD []
          let bag1 := combos.foldl
            (fun b ck =>
              let c := (alGet b ck).getD ⟨0, 0, 0⟩
              alSet b ck
                ⟨c.picks + 1, c.wins + winsInc s, c.sumPlacement + placeVal s⟩)
            bag0
          alSet uc u.character_id bag1)
    uc

/-- One iteration of the participant loop body. -/
def aggStep (st : AggState) (s : Slice) : AggState :=
  { compBuckets := compStep st.compBuckets s
    unitCombos := comboStep st.unitCombos s }

/-- The slices actually processed: for each match, skip it unless
`!patchFilter || patch === patchFilter`; otherwise process every
participant with the match's normalized patch. -/
def procSlices (ms : List MatchInfo) (patchFilter : String) : List Slice :=
  ms.flatMap fun m =>
    let patch := normalizePatch m.game_version
    if patchFilter ≠ "" ∧ patch ≠ patchFilter then []
    else m.participants.map fun p => { patch := patch, placement := p.placement, units := p.units }

/-- `aggregateCountsAndCombos(matches, patchFilter)`. -/
def aggregateCountsAndCombos (ms : List MatchInfo) (patchFilter : String) : AggState :=
  (procSlices ms patchFilter).foldl aggStep ⟨[], []⟩

/-! ## Finalization -/

/-- `+(q).toFixed(2)` modelled as decimal rounding to 2 digits over `ℚ`. -/
def round2 (q : ℚ) : ℚ :=
  ((round (q * 100) : ℤ) : ℚ) / 100

/-- `+(q).toFixed(1)` modelled as decimal rounding to 1 digit over `ℚ`. -/
def round1 (q : ℚ) : ℚ :=
  ((round (q * 10) : ℤ) : ℚ) / 10

/-- The comparator `(a,b) => b[1]-a[1]` (descending by frequency) as the
relation fed to the stable sort. -/
def freqGE (a b : String × ℚ) : Prop :=
  b.2 ≤ a.2

instance : DecidableRel freqGE := fun _ _ => by unfold freqGE; infer_instance

instance : IsTotal (String × ℚ) freqGE :=
  ⟨fun a b => (le_total b.2 a.2).imp id id⟩

instance : IsTrans (String × ℚ) freqGE :=
  ⟨fun _ _ _ hab hbc => le_trans hbc hab⟩

/-- `freqFromCounts`: total count, per-item probability, sorted descending. -/
def freqFromCounts (counts : ItemCount) : List (String × ℚ) :=
  let total : Nat := (counts.map (·.2)).sum
  let out := counts.map fun p =>
    (p.1, if total = 0 then (0 : ℚ) else (p.2 : ℚ) / (total : ℚ))
  out.insertionSort freqGE

/-- The per-unit entry of a finalized composition row. -/
structure CompRowUnit where
  character_id : String
  top_items : List String
  item_freq : List (String × ℚ)
  deriving DecidableEq, Repr

/-- `CompRow`: one finalized composition row. -/
structure CompRow where
  patch : String
  comp_key : String
  picks : Nat
  avg_placement : ℚ
  winrate : ℚ
  unit_set : List String
  units : List CompRowUnit
  deriving DecidableEq, Repr

/-- The comparator `(a,b) => a.avg_placement - b.avg_placement || b.picks - a.picks`
as the relation fed to the stable sort: `a` comes (weakly) before `b`. -/
def rowLE (a b : CompRow) : Prop :=
  a.avg_placement < b.avg_placement ∨
    (a.avg_placement = b.avg_placement ∧ b.picks ≤ a.picks)

instance : DecidableRel rowLE := fun _ _ => by unfold rowLE; infer_instance

instance : IsTotal CompRow rowLE := by
  constructor
  intro a b
  rcases lt_trichotomy a.avg_placement b.avg_placement with h | h | h
  · exact Or.inl (Or.inl h)
  · rcases le_total b.picks a.picks with hp | hp
    · exact Or.inl (Or.inr ⟨h, hp⟩)
    · exact Or.inr (Or.inr ⟨h.symm, hp⟩)
  · exact Or.inr (Or.inl h)

instance : IsTrans CompRow rowLE := by
  constructor
  intro a b c hab hbc
  rcases hab with h | ⟨h1, h2⟩ <;> rcases hbc with h' | ⟨h1', h2'⟩
  · exact Or.inl (lt_trans h h')
  · exact Or.inl (h1' ▸ h)
  · exact Or.inl (h1 ▸ h')
  · exact Or.inr ⟨h1.trans h1', le_trans h2' h2⟩

/-- The `picks < minPicks → skip` filter of `finalizeComps`. -/
def compThreshold (m : CompBuckets) (minPicks : Nat) : CompBuckets :=
  m.filter fun p => !decide (p.2.picks < minPicks)

/-- The row built for a surviving composition bucket. -/
def compRowOf (c : CompCounts) : CompRow :=
  { patch := c.patch
    comp_key := c.comp_key
    picks := c.picks
    avg_placement := round2 ((c.sumPlacement : ℚ) / (c.picks : ℚ))
    winrate := round1 ((c.wins : ℚ) / (c.picks : ℚ) * 100)
    unit_set := c.unit_set
    units := c.units.map fun p =>
      let freq := freqFromCounts p.2
      { character_id := p.1
        top_items := (freq.take 3).map Prod.fst
        item_freq := freq } }

/-- `finalizeComps`: threshold, build rows, sort, truncate to top 20. -/
def finalizeComps (compBuckets : CompBuckets) (minPicks : Nat) : List CompRow :=
  (((compThreshold compBuckets minPicks).map fun p => compRowOf p.2).insertionSort
    rowLE).take 20

/-- One finalized 3-item-combo row. -/
structure ComboRow where
  combo : List String
  picks : Nat
  avg_placement : ℚ
  winrate : ℚ
  deriving DecidableEq, Repr

/-- Same ranking comparator on combo rows. -/
def comboRowLE (a b : ComboRow) : Prop :=
  a.avg_placement < b.avg_placement ∨
    (a.avg_placement = b.avg_placement ∧ b.picks ≤ a.picks)

instance : DecidableRel comboRowLE := fun _ _ => by unfold comboRowLE; infer_instance

instance : IsTotal ComboRow comboRowLE := by
  constructor
  intro a b
  rcases lt_trichotomy a.avg_placement b.avg_placement with h | h | h
  · exact Or.inl (Or.inl h)
  · rcases le_total b.picks a.picks with hp | hp
    · exact Or.inl (Or.inr ⟨h, hp⟩)
    · exact Or.inr (Or.inr ⟨h.symm, hp⟩)
  · exact Or.inr (Or.inl h)

instance : IsTrans ComboRow comboRowLE := by
  constructor
  intro a b c hab hbc
  rcases hab with h | ⟨h1, h2⟩ <;> rcases hbc with h' | ⟨h1', h2'⟩
  · exact Or.inl (lt_trans h h')
  · exact Or.inl (h1' ▸ h)
  · exact Or.inl (h1 ▸ h')
  · exact Or.inr ⟨h1.trans h1', le_trans h2' h2⟩

/-- `UnitComboRow`: one unit with its surviving, ranked combo rows. -/
structure UnitComboRow where
  unit : String
  combos : List ComboRow
  deriving DecidableEq, Repr

/-- The `picks < minPicksItemCombo → skip` filter of `finalizeUnitCombos`. -/
def comboThreshold (bag : List (String × ComboCounts)) (minPicks : Nat) :
    List (String × ComboCounts) :=
  bag.filter fun q => !decide (q.2.picks < minPicks)

/-- The row built for one surviving combo. -/
def comboRowOf (q : String × ComboCounts) : ComboRow :=
  { combo := splitStr q.1 "|"
    picks := q.2.picks
    avg_placement := round2 ((q.2.sumPlacement : ℚ) / (q.2.picks : ℚ))
    winrate := round1 ((q.2.wins : ℚ) / (q.2.picks : ℚ) * 100) }

/-- `finalizeUnitCombos`: per unit, threshold, sort, truncate to `topN`
(default 10); finally keep only units with at least one surviving combo. -/
def finalizeUnitCombos (unitCombos : UnitComboBag) (minPicksItemCombo : Nat)
    (topN : Nat) : List UnitComboRow :=
  (unitCombos.map fun p =>
      { unit := p.1
        combos := (((comboThreshold p.2 minPicksItemCombo).map comboRowOf).insertionSort
          comboRowLE).take topN } :
    List UnitComboRow).filter fun u => !u.combos.isEmpty

/-! ## Merging state across runs -/

/-- The deep merge of `units → item → count` maps (sum at the leaves). -/
def mergeUnits (dest src : UnitBag) : UnitBag :=
  src.foldl
    (fun d p =>
      alSet d p.1
        (p.2.foldl (fun bag q => alSet bag q.1 ((alGet bag q.1).getD 0 + q.2))
          ((alGet d p.1).getD [])))
    dest

/-- `mergeCompBuckets(base, add)`: copy missing buckets, sum counts and
deep-merge item counts where both sides have the key. -/
def mergeCompBuckets (base add : CompBuckets) : CompBuckets :=
  add.foldl
    (fun b p =>
      match alGet b p.1 with
      | none => alSet b p.1 p.2
      | some cur =>
          alSet b p.1
            { cur with
              picks := cur.picks + p.2.picks
              wins := cur.wins + p.2.wins
              sumPlacement := cur.sumPlacement + p.2.sumPlacement
              units := mergeUnits cur.units p.2.units })
    base

/-- `mergeUnitCombos(base, add)`: per unit, copy missing combos and sum
counts where both sides have the combo. -/
def mergeUnitCombos (base add : UnitComboBag) : UnitComboBag :=
  add.foldl
    (fun b p =>
      alSet b p.1
        (p.2.foldl
          (fun d q =>
            match alGet d q.1 with
            | none => alSet d q.1 q.2
            | some cur =>
                alSet d q.1
                  ⟨cur.picks + q.2.picks, cur.wins + q.2.wins,
                    cur.sumPlacement + q.2.sumPlacement⟩)
          ((alGet b p.1).getD [])))
    base

/-! ## Association-list lemmas -/

/-! ## Association-list lemmas -/

theorem alGet_nil {α : Type} (k : String) : alGet ([] : List (String × α)) k = none := rfl

theorem alGet_cons {α : Type} (p : String × α) (t : List (String × α)) (k : String) :
    alGet (p :: t) k = if p.1 = k then some p.2 else alGet t k := rfl

theorem alSet_nil {α : Type} (k : String) (v : α) : alSet [] k v = [(k, v)] := rfl

theorem alSet_cons {α : Type} (p : String × α) (t : List (String × α)) (k : String) (v : α) :
    alSet (p :: t) k v = if p.1 = k then (p.1, v) :: t else p :: alSet t k v := rfl

theorem alGet_alSet {α : Type} (l : List (String × α)) (k k' : String) (v : α) :
    alGet (alSet l k v) k' = if k = k' then some v else alGet l k' := by
  induction l with
  | nil => simp [alGet, alSet]
  | cons p t ih =>
    by_cases h : p.1 = k
    · rw [alSet_cons, if_pos h, alGet_cons, alGet_cons, h]
      by_cases h2 : k = k' <;> simp [h2]
    · rw [alSet_cons, if_neg h, alGet_cons, ih, alGet_cons]
      by_cases h2 : p.1 = k' <;> by_cases h3 : k = k' <;> simp [h2, h3]
      exact absurd (h2.trans h3.symm) h

theorem alGet_alSet_self {α : Type} (l : List (String × α)) (k : String) (v : α) :
    alGet (alSet l k v) k = some v := by
  simp [alGet_alSet]

theorem alGet_alSet_ne {α : Type} (l : List (String × α)) {k k' : String} (v : α)
    (h : k ≠ k') : alGet (alSet l k v) k' = alGet l k' := by
  simp [alGet_alSet, h]

theorem alGet_mem {α : Type} {l : List (String × α)} {k : String} {v : α}
    (h : alGet l k = some v) : (k, v) ∈ l := by
  induction l with
  | nil => simp [alGet] at h
  | cons p t ih =>
    rw [alGet_cons] at h
    split_ifs at h with h2
    · cases h
      rw [← h2, Prod.mk.eta]
      exact List.mem_cons_self _ _
    · exact List.mem_cons_of_mem _ (ih h)

theorem mem_alSet {α : Type} {l : List (String × α)} {k : String} {v : α} {q : String × α}
    (h : q ∈ alSet l k v) : q ∈ l ∨ q = (k, v) := by
  induction l with
  | nil => simpa [alSet] using h
  | cons p t ih =>
    by_cases h2 : p.1 = k
    · rw [alSet_cons, if_pos h2] at h
      rcases List.mem_cons.mp h with h3 | h3
      · right
        rw [h3, h2]
      · exact Or.inl (List.mem_cons_of_mem _ h3)
    · rw [alSet_cons, if_neg h2] at h
      rcases List.mem_cons.mp h with h3 | h3
      · exact Or.inl (h3 ▸ List.mem_cons_self _ _)
      · rcases ih h3 with h4 | h4
        · exact Or.inl (List.mem_cons_of_mem _ h4)
        · exact Or.inr h4

theorem alGet_eq_none_iff {α : Type} {l : List (String × α)} {k : String} :
    alGet l k = none ↔ k ∉ l.map Prod.fst := by
  induction l with
  | nil => simp [alGet]
  | cons p t ih =>
    rw [alGet_cons, List.map_cons]
    by_cases h : p.1 = k
    · simp [h]
    · rw [if_neg h, ih]
      constructor
      · intro hn hm
        rcases List.mem_cons.mp hm with h2 | h2
        · exact h h2.symm
        · exact hn h2
      · intro hn h2
        exact hn (List.mem_cons_of_mem _ h2)

theorem alGet_isSome_iff {α : Type} {l : List (String × α)} {k : String} :
    (alGet l k).isSome = true ↔ ∃ p ∈ l, p.1 = k := by
  induction l with
  | nil => simp [alGet]
  | cons p t ih =>
    rw [alGet_cons]
    by_cases h : p.1 = k
    · simp only [if_pos h, Option.isSome_some, true_iff]
      exact ⟨p, List.mem_cons_self _ _, h⟩
    · rw [if_neg h, ih]
      constructor
      · rintro ⟨q, hq, hqk⟩
        exact ⟨q, List.mem_cons_of_mem _ hq, hqk⟩
      · rintro ⟨q, hq, hqk⟩
        rcases List.mem_cons.mp hq with h2 | h2
        · exact absurd (h2 ▸ hqk) h
        · exact ⟨q, h2, hqk⟩

theorem map_fst_alSet {α : Type} (l : List (String × α)) (k : String) (v : α) :
    (alSet l k v).map Prod.fst =
      if (alGet l k).isSome then l.map Prod.fst else l.map Prod.fst ++ [k] := by
  induction l with
  | nil => simp [alGet, alSet]
  | cons p t ih =>
    by_cases h : p.1 = k
    · rw [alSet_cons, if_pos h, alGet_cons, if_pos h]
      simp
    · rw [alSet_cons, if_neg h, alGet_cons, if_neg h]
      simp only [List.map_cons, ih]
      by_cases h2 : (alGet t k).isSome <;> simp [h2]

/-- Keys are pairwise distinct (the `Map` key-uniqueness invariant). -/
def NodupKeysL {α : Type} (l : List (String × α)) : Prop :=
  (l.map Prod.fst).Nodup

theorem nodupKeysL_alSet {α : Type} {l : List (String × α)} (k : String) (v : α)
    (h : NodupKeysL l) : NodupKeysL (alSet l k v) := by
  unfold NodupKeysL at h ⊢
  rw [map_fst_alSet]
  cases hg : (alGet l k).isSome with
  | true => simpa [hg] using h
  | false =>
    simp only [hg, Bool.false_eq_true, if_false]
    rw [List.nodup_append]
    refine ⟨h, List.nodup_singleton k, fun a ha hb => ?_⟩
    rcases List.mem_singleton.mp hb with rfl
    have h3 : alGet l a = none := by
      rcases h4 : alGet l a with _ | w
      · rfl
      · rw [h4] at hg
        simp at hg
    exact (alGet_eq_none_iff.mp h3) ha

/-! ## The string order used by the sorts -/

theorem strLEb_refl (as : List Char) : strLEb as as = true := by
  induction as with
  | nil => rfl
  | cons a t ih => simp [strLEb, ih]

theorem strLEb_total (as bs : List Char) : strLEb as bs = true ∨ strLEb bs as = true := by
  induction as generalizing bs with
  | nil => exact Or.inl rfl
  | cons a t ih =>
    cases bs with
    | nil => exact Or.inr rfl
    | cons b u =>
      rcases Nat.lt_trichotomy a.toNat b.toNat with h | h | h
      · exact Or.inl (by simp [strLEb, h])
      · rcases ih u with h' | h' <;> [left; right] <;>
          simp [strLEb, h, Nat.lt_irrefl, h']
      · exact Or.inr (by simp [strLEb, h])

theorem strLEb_trans {as bs cs : List Char} (h1 : strLEb as bs = true)
    (h2 : strLEb bs cs = true) : strLEb as cs = true := by
  induction as generalizing bs cs with
  | nil => rfl
  | cons a t ih =>
    cases bs with
    | nil => simp [strLEb] at h1
    | cons b u =>
      cases cs with
      | nil => simp [strLEb] at h2
      | cons c w =>
        simp only [strLEb] at h1 h2 ⊢
        rcases Nat.lt_trichotomy a.toNat b.toNat with hab | hab | hab
        · rcases Nat.lt_trichotomy b.toNat c.toNat with hbc | hbc | hbc
          · simp [lt_trans hab hbc]
          · simp [hbc ▸ hab]
          · simp [Nat.lt_asymm hbc, hbc] at h2
        · rcases Nat.lt_trichotomy b.toNat c.toNat with hbc | hbc | hbc
          · simp [hab ▸ hbc]
          · have hac : a.toNat = c.toNat := hab.trans hbc
            have h1' : strLEb t u = true := by
              simpa [hab, Nat.lt_irrefl] using h1
            have h2' : strLEb u w = true := by
              simpa [hbc, Nat.lt_irrefl] using h2
            simpa [hac, Nat.lt_irrefl] using ih h1' h2'
          · simp [Nat.lt_asymm hbc, hbc] at h2
        · simp [Nat.lt_asymm hab, hab] at h1

theorem strLEb_antisymm {as bs : List Char} (h1 : strLEb as bs = true)
    (h2 : strLEb bs as = true) : as = bs := by
  induction as generalizing bs with
  | nil =>
    cases bs with
    | nil => rfl
    | cons b u => simp [strLEb] at h2
  | cons a t ih =>
    cases bs with
    | nil => simp [strLEb] at h1
    | cons b u =>
      simp only [strLEb] at h1 h2
      rcases Nat.lt_trichotomy a.toNat b.toNat with h | h | h
      · simp [h, Nat.lt_asymm h] at h2
      · have ha : a = b := Char.eq_of_val_eq (UInt32.toNat.inj h)
        have h1' : strLEb t u = true := by
          simpa [h, Nat.lt_irrefl] using h1
        have h2' : strLEb u t = true := by
          simpa [h, Nat.lt_irrefl] using h2
        rw [ha, ih h1' h2']
      · simp [h, Nat.lt_asymm h] at h1

instance : IsTotal String strLE :=
  ⟨fun a b => strLEb_total a.data b.data⟩

instance : IsTrans String strLE :=
  ⟨fun _ _ _ h1 h2 => strLEb_trans h1 h2⟩

instance : IsAntisymm String strLE := by
  constructor
  intro a b h1 h2
  cases a with
  | mk d1 =>
    cases b with
    | mk d2 => exact congrArg String.mk (strLEb_antisymm h1 h2)

instance : IsRefl String strLE :=
  ⟨fun a => strLEb_refl a.data⟩

theorem sortStrings_sorted (l : List String) : (sortStrings l).Sorted strLE :=
  List.sorted_insertionSort strLE l

theorem sortStrings_perm (l : List String) : List.Perm (sortStrings l) l :=
  List.perm_insertionSort strLE l

theorem sortStrings_eq_of_perm {l₁ l₂ : List String} (h : List.Perm l₁ l₂) :
    sortStrings l₁ = sortStrings l₂ :=
  List.eq_of_perm_of_sorted
    ((sortStrings_perm l₁).trans (h.trans (sortStrings_perm l₂).symm))
    (sortStrings_sorted l₁) (sortStrings_sorted l₂)

/-! ## C1: signature stability -/

/-- C1: the claim that `compSignature` depends only on the deduplicated set
of unit ids is false: a unit's items change the signature, duplicate units
are kept, and the key is not the joined unit ids.  Concretely, `[A(x)]` and
`[A()]` have the same `unitSet` but different signatures, and neither equals
`"A"`; duplicating `A()` also changes the signature. -/
theorem compSignature_items_counterexample :
    unitSet [(⟨"A", ["x"]⟩ : Unit)] = unitSet [(⟨"A", []⟩ : Unit)] ∧
    compSignature [(⟨"A", ["x"]⟩ : Unit)] ≠ compSignature [(⟨"A", []⟩ : Unit)] ∧
    compSignature [(⟨"A", ["x"]⟩ : Unit)] ≠ "A" ∧
    compSignature [(⟨"A", []⟩ : Unit), ⟨"A", []⟩] ≠ compSignature [(⟨"A", []⟩ : Unit)] := by
  decide

/-- C1 (amended): `compSignature` is invariant to the input order of the
units within a slice (any permutation of the unit list yields the same key);
the key is the sorted list of per-unit `character_id:sorted-items` entries
joined by `"|"`, so it does distinguish item loadouts and duplicate units. -/
theorem compSignature_perm_invariant (l₁ l₂ : List Unit) (h : List.Perm l₁ l₂) :
    compSignature l₁ = compSignature l₂ := by
  unfold compSignature
  rw [sortStrings_eq_of_perm (h.map unitEntry)]

/-- Witness for `compSignature_perm_invariant` at a concrete permutation. -/
theorem compSignature_perm_invariant_witness :
    compSignature [(⟨"B", ["i"]⟩ : Unit), ⟨"A", []⟩] =
      compSignature [(⟨"A", []⟩ : Unit), ⟨"B", ["i"]⟩] :=
  compSignature_perm_invariant _ _ (List.Perm.swap _ _ _)

/-! ## C3: patch normalization -/

/-- Some substring of `cs` matches the regex `\d+\.\d+`. -/
def HasPatchMatch (cs : List Char) : Prop :=
  ∃ pre d1 d2 post, cs = pre ++ d1 ++ '.' :: (d2 ++ post) ∧ d1 ≠ [] ∧ d2 ≠ [] ∧
    (∀ c ∈ d1, c.isDigit = true) ∧ (∀ c ∈ d2, c.isDigit = true)

/-- A match of `\d+\.\d+` starting exactly at position `q` of `cs`. -/
def MatchAt (cs : List Char) (q : Nat) : Prop :=
  ∃ d1 d2 post, cs.drop q = d1 ++ '.' :: (d2 ++ post) ∧ d1 ≠ [] ∧ d2 ≠ [] ∧
    (∀ c ∈ d1, c.isDigit = true) ∧ (∀ c ∈ d2, c.isDigit = true)

theorem matchAt_cons_succ {c : Char} {cs : List Char} {q : Nat} :
    MatchAt (c :: cs) (q + 1) ↔ MatchAt cs q := Iff.rfl

theorem takeWhile_append_of_all {α : Type} {p : α → Bool} {l₁ : List α}
    (h : ∀ c ∈ l₁, p c = true) (l₂ : List α) :
    (l₁ ++ l₂).takeWhile p = l₁ ++ l₂.takeWhile p := by
  induction l₁ with
  | nil => simp
  | cons a t ih =>
    have ha : p a = true := h a (List.mem_cons_self _ _)
    simp only [List.cons_append, List.takeWhile_cons, ha, if_true]
    rw [ih (fun c hc => h c (List.mem_cons_of_mem _ hc))]

theorem dropWhile_append_of_all {α : Type} {p : α → Bool} {l₁ : List α}
    (h : ∀ c ∈ l₁, p c = true) (l₂ : List α) :
    (l₁ ++ l₂).dropWhile p = l₂.dropWhile p := by
  induction l₁ with
  | nil => simp
  | cons a t ih =>
    have ha : p a = true := h a (List.mem_cons_self _ _)
    simp only [List.cons_append, List.dropWhile_cons, ha, if_true]
    exact ih (fun c hc => h c (List.mem_cons_of_mem _ hc))

theorem head_dropWhile_false {p : Char → Bool} {l : List Char} {c : Char}
    (h : (l.dropWhile p).head? = some c) : p c = false := by
  induction l with
  | nil => simp at h
  | cons a t ih =>
    rw [List.dropWhile_cons] at h
    split_ifs at h with hp
    · exact ih h
    · rw [List.head?_cons, Option.some.injEq] at h
      subst h
      simp only [Bool.not_eq_true] at hp
      exact hp

theorem not_matchAt_zero_of_not_digit {c : Char} {cs : List Char}
    (hd : c.isDigit = false) : ¬ MatchAt (c :: cs) 0 := by
  rintro ⟨d1, d2, post, heq, h1, h2, hda, hdb⟩
  rw [List.drop_zero] at heq
  cases d1 with
  | nil => exact h1 rfl
  | cons e d1' =>
    rw [List.cons_append] at heq
    have hce : c = e := (List.cons_eq_cons.mp heq).1
    have : c.isDigit = true := hce ▸ hda e (List.mem_cons_self _ _)
    rw [hd] at this
    exact Bool.false_ne_true this

theorem dropWhile_of_match_shape {c : Char} {cs d1 d2 post : List Char}
    (heq : c :: cs = d1 ++ '.' :: (d2 ++ post))
    (hda : ∀ x ∈ d1, x.isDigit = true) :
    (c :: cs).dropWhile Char.isDigit = '.' :: (d2 ++ post) := by
  rw [heq, dropWhile_append_of_all hda, List.dropWhile_cons_of_neg (by decide)]

/-- Soundness: a successful `findPatch` yields an actual regex match. -/
theorem findPatch_sound {cs a b : List Char}
    (h : findPatch cs = some (a, b)) :
    ∃ pre post, cs = pre ++ a ++ '.' :: (b ++ post) ∧ a ≠ [] ∧ b ≠ [] ∧
      (∀ c ∈ a, c.isDigit = true) ∧ (∀ c ∈ b, c.isDigit = true) := by
  induction cs with
  | nil => simp [findPatch] at h
  | cons c cs ih =>
    have hstep :
        (∃ pre post, cs = pre ++ a ++ '.' :: (b ++ post) ∧ a ≠ [] ∧ b ≠ [] ∧
          (∀ c ∈ a, c.isDigit = true) ∧ (∀ c ∈ b, c.isDigit = true)) →
        ∃ pre post, c :: cs = pre ++ a ++ '.' :: (b ++ post) ∧ a ≠ [] ∧ b ≠ [] ∧
          (∀ c ∈ a, c.isDigit = true) ∧ (∀ c ∈ b, c.isDigit = true) := by
      rintro ⟨pre, post, hcs, ha, hb, hda, hdb⟩
      exact ⟨c :: pre, post, by simp [hcs], ha, hb, hda, hdb⟩
    simp only [findPatch] at h
    split_ifs at h with hd
    · split at h
      next d cs2 heq =>
        split_ifs at h with hcond
        · rcases hcond with ⟨rfl, hne⟩
          cases h
          refine ⟨[], cs2.dropWhile Char.isDigit, ?_, ?_, hne, ?_, ?_⟩
          · rw [List.nil_append]
            conv_lhs => rw [← List.takeWhile_append_dropWhile (p := Char.isDigit) (l := c :: cs)]
            rw [heq, List.takeWhile_append_dropWhile]
          · rw [List.takeWhile_cons_of_pos hd]
            exact List.cons_ne_nil _ _
          · exact fun x hx => List.mem_takeWhile_imp hx
          · exact fun x hx => List.mem_takeWhile_imp hx
        · exact hstep (ih h)
      next heq => exact hstep (ih h)
    · exact hstep (ih h)

/-- `findPatch` finds the LEFTMOST match, with a greedy second group: no
match of the regex starts at any position before the returned one, and the
character right after the second digit group (if any) is not a digit. -/
theorem findPatch_leftmost {cs a b : List Char}
    (h : findPatch cs = some (a, b)) :
    ∃ pre post, cs = pre ++ a ++ '.' :: (b ++ post) ∧ a ≠ [] ∧ b ≠ [] ∧
      (∀ c ∈ a, c.isDigit = true) ∧ (∀ c ∈ b, c.isDigit = true) ∧
      (∀ q, q < pre.length → ¬ MatchAt cs q) ∧
      (∀ c, post.head? = some c → c.isDigit = false) := by
  induction cs with
  | nil => simp [findPatch] at h
  | cons c cs ih =>
    have hstep : ¬ MatchAt (c :: cs) 0 →
        (∃ pre post, cs = pre ++ a ++ '.' :: (b ++ post) ∧ a ≠ [] ∧ b ≠ [] ∧
          (∀ x ∈ a, x.isDigit = true) ∧ (∀ x ∈ b, x.isDigit = true) ∧
          (∀ q, q < pre.length → ¬ MatchAt cs q) ∧
          (∀ x, post.head? = some x → x.isDigit = false)) →
        ∃ pre post, c :: cs = pre ++ a ++ '.' :: (b ++ post) ∧ a ≠ [] ∧ b ≠ [] ∧
          (∀ x ∈ a, x.isDigit = true) ∧ (∀ x ∈ b, x.isDigit = true) ∧
          (∀ q, q < pre.length → ¬ MatchAt (c :: cs) q) ∧
          (∀ x, post.head? = some x → x.isDigit = false) := by
      rintro h0 ⟨pre, post, hcs, ha, hb, hda, hdb, hlm, hpost⟩
      refine ⟨c :: pre, post, by simp [hcs], ha, hb, hda, hdb, ?_, hpost⟩
      intro q hq
      cases q with
      | zero => exact h0
      | succ q' =>
        rw [matchAt_cons_succ]
        refine hlm q' ?_
        simp only [List.length_cons] at hq
        omega
    simp only [findPatch] at h
    split_ifs at h with hd
    · split at h
      next d cs2 heq =>
        split_ifs at h with hcond
        · rcases hcond with ⟨rfl, hne⟩
          cases h
          refine ⟨[], cs2.dropWhile Char.isDigit, ?_, ?_, hne, ?_, ?_, ?_, ?_⟩
          · rw [List.nil_append]
            conv_lhs => rw [← List.takeWhile_append_dropWhile (p := Char.isDigit) (l := c :: cs)]
            rw [heq, List.takeWhile_append_dropWhile]
          · rw [List.takeWhile_cons_of_pos hd]
            exact List.cons_ne_nil _ _
          · exact fun x hx => List.mem_takeWhile_imp hx
          · exact fun x hx => List.mem_takeWhile_imp hx
          · intro q hq
            simp at hq
          · exact fun x hx => head_dropWhile_false hx
        · refine hstep ?_ (ih h)
          rintro ⟨d1, d2, post', heq0, h1, h2, hda, hdb⟩
          rw [List.drop_zero] at heq0
          have hdw := dropWhile_of_match_shape heq0 hda
          rw [heq] at hdw
          have hd' : d = '.' := (List.cons_eq_cons.mp hdw).1
          have hcs2 : cs2 = d2 ++ post' := (List.cons_eq_cons.mp hdw).2
          apply hcond
          refine ⟨hd', ?_⟩
          rw [hcs2]
          cases d2 with
          | nil => exact absurd rfl h2
          | cons f d2' =>
            rw [List.cons_append, List.takeWhile_cons_of_pos (hdb f (List.mem_cons_self _ _))]
            exact List.cons_ne_nil _ _
      next heq =>
        refine hstep ?_ (ih h)
        rintro ⟨d1, d2, post', heq0, h1, h2, hda, hdb⟩
        rw [List.drop_zero] at heq0
        have hdw := dropWhile_of_match_shape heq0 hda
        rw [heq] at hdw
        exact (List.cons_ne_nil _ _) hdw.symm
    · refine hstep (not_matchAt_zero_of_not_digit ?_) (ih h)
      simpa using hd

/-- Completeness: if some substring matches `\d+\.\d+`, `findPatch` succeeds. -/
theorem findPatch_isSome_of_hasPatchMatch {cs : List Char} (h : HasPatchMatch cs) :
    (findPatch cs).isSome = true := by
  induction cs with
  | nil =>
    rcases h with ⟨pre, d1, d2, post, hcs, h1, _, _, _⟩
    simp at hcs
  | cons c cs ih =>
    rcases h with ⟨pre, d1, d2, post, hcs, h1, h2, hda, hdb⟩
    cases pre with
    | cons p0 pre' =>
      -- the match lies within cs
      have hcs' : cs = pre' ++ d1 ++ '.' :: (d2 ++ post) := by
        rw [List.cons_append] at hcs
        exact (List.cons_eq_cons.mp hcs).2
      have hrec := ih ⟨pre', d1, d2, post, hcs', h1, h2, hda, hdb⟩
      simp only [findPatch]
      split_ifs with hd
      · split
        next d cs2 heq =>
          split_ifs with hcond
          · simp
          · exact hrec
        next heq => exact hrec
      · exact hrec
    | nil =>
      -- the match starts at c
      rw [List.nil_append] at hcs
      rcases d1 with _ | ⟨e, d1'⟩
      · exact absurd rfl h1
      · rw [List.cons_append] at hcs
        have hce : c = e := (List.cons_eq_cons.mp hcs).1
        have hcs2 : cs = d1' ++ '.' :: (d2 ++ post) := (List.cons_eq_cons.mp hcs).2
        have hd : c.isDigit = true := hce ▸ hda e (List.mem_cons_self _ _)
        have halld : ∀ x ∈ c :: d1', x.isDigit = true := by
          intro x hx
          rcases List.mem_cons.mp hx with rfl | hx'
          · exact hd
          · exact hda x (List.mem_cons_of_mem _ hx')
        have hdrop : (c :: cs).dropWhile Char.isDigit = '.' :: (d2 ++ post) := by
          have hshape : c :: cs = (c :: d1') ++ '.' :: (d2 ++ post) := by
            rw [List.cons_append, hcs2]
          rw [hshape, dropWhile_append_of_all halld]
          rw [List.dropWhile_cons_of_neg]
          decide
        have htw : (d2 ++ post).takeWhile Char.isDigit ≠ [] := by
          rcases d2 with _ | ⟨f, d2'⟩
          · exact absurd rfl h2
          · have hf : f.isDigit = true := hdb f (List.mem_cons_self _ _)
            rw [List.cons_append, List.takeWhile_cons_of_pos hf]
            exact List.cons_ne_nil _ _
        simp only [findPatch, hd, if_true, hdrop]
        simp [htw]

/-- C3: the claim "no `\d+\.\d+` substring → returns the sentinel `unknown`"
is false: on `"abc"` (no match) the code returns `"abc"`, because the source
returns `v ?? "unknown"`, which is the original string whenever `v` is not
null/undefined. -/
theorem normalizePatch_unparsed_counterexample :
    ¬ HasPatchMatch ("abc".data) ∧ normalizePatch (some "abc") = "abc" ∧
      ("abc" : String) ≠ "unknown" := by
  refine ⟨fun h => ?_, by decide, by decide⟩
  have h2 : findPatch ("abc".data) = none := by decide
  have := findPatch_isSome_of_hasPatchMatch h
  rw [h2] at this
  simp at this

/-- C3 (amended): `normalizePatch` returns `"unknown"` only for an absent
(null/undefined) version string; a string containing no `\d+\.\d+` substring
is returned unchanged; and when a match exists the result is the FIRST
(leftmost) match formatted as `d1.d2`: no match of the regex starts at any
earlier position, and the second digit group is greedy-maximal (the
character right after it, if any, is not a digit) — these conditions
determine the match groups uniquely. -/
theorem normalizePatch_spec :
    normalizePatch none = "unknown" ∧
    (∀ v : String, ¬ HasPatchMatch v.data → normalizePatch (some v) = v) ∧
    (∀ v : String, HasPatchMatch v.data →
      ∃ d1 d2 pre post, v.data = pre ++ d1 ++ '.' :: (d2 ++ post) ∧ d1 ≠ [] ∧ d2 ≠ [] ∧
        (∀ c ∈ d1, c.isDigit = true) ∧ (∀ c ∈ d2, c.isDigit = true) ∧
        (∀ q, q < pre.length → ¬ MatchAt v.data q) ∧
        (∀ c, post.head? = some c → c.isDigit = false) ∧
        normalizePatch (some v) = String.mk d1 ++ "." ++ String.mk d2) := by
  refine ⟨rfl, fun v hv => ?_, fun v hv => ?_⟩
  · rcases hf : findPatch v.data with _ | ⟨a, b⟩
    · simp [normalizePatch, hf]
    · rcases findPatch_sound hf with ⟨pre, post, hcs, ha, hb, hda, hdb⟩
      exact absurd ⟨pre, a, b, post, hcs, ha, hb, hda, hdb⟩ hv
  · rcases hf : findPatch v.data with _ | ⟨a, b⟩
    · have := findPatch_isSome_of_hasPatchMatch hv
      rw [hf] at this
      simp at this
    · rcases findPatch_leftmost hf with ⟨pre, post, hcs, ha, hb, hda, hdb, hlm, hpost⟩
      exact ⟨a, b, pre, post, hcs, ha, hb, hda, hdb, hlm, hpost,
        by simp [normalizePatch, hf]⟩

/-- Witness for `normalizePatch_spec` at concrete inputs: a no-match string
comes back unchanged, an absent version gives the sentinel, and on a
multi-match string the first match is the one returned. -/
theorem normalizePatch_spec_witness :
    normalizePatch (some "nope") = "nope" ∧ normalizePatch none = "unknown" ∧
    normalizePatch (some "Version 15.4.671") = "15.4" := by
  refine ⟨?_, normalizePatch_spec.1, by decide⟩
  apply normalizePatch_spec.2.1 "nope"
  intro h
  have h2 : findPatch ("nope".data) = none := by decide
  have := findPatch_isSome_of_hasPatchMatch h
  rw [h2] at this
  simp at this

/-! ## C6: combo enumeration -/

/-- Strict JS string order. -/
def strLT (a b : String) : Prop :=
  strLE a b ∧ a ≠ b

theorem strLE_antisymm {a b : String} (h1 : strLE a b) (h2 : strLE b a) : a = b := by
  cases a with
  | mk d1 =>
    cases b with
    | mk d2 => exact congrArg String.mk (strLEb_antisymm h1 h2)

theorem strLT_asymm {a b : String} (h1 : strLT a b) (h2 : strLT b a) : False :=
  h1.2 (strLE_antisymm h1.1 h2.1)

theorem mem_dedupFirst_go {seen l : List String} {x : String} :
    x ∈ dedupFirst.go seen l ↔ x ∈ l ∧ x ∉ seen := by
  induction l generalizing seen with
  | nil => simp [dedupFirst.go]
  | cons a t ih =>
    by_cases h : a ∈ seen
    · rw [dedupFirst.go, if_pos h, ih]
      constructor
      · rintro ⟨hx, hs⟩
        exact ⟨List.mem_cons_of_mem _ hx, hs⟩
      · rintro ⟨hx, hs⟩
        rcases List.mem_cons.mp hx with rfl | hx'
        · exact absurd h hs
        · exact ⟨hx', hs⟩
    · rw [dedupFirst.go, if_neg h]
      constructor
      · intro hx
        rcases List.mem_cons.mp hx with rfl | hx'
        · exact ⟨List.mem_cons_self _ _, h⟩
        · rcases ih.mp hx' with ⟨h1, h2⟩
          refine ⟨List.mem_cons_of_mem _ h1, fun hc => h2 (List.mem_cons_of_mem _ hc)⟩
      · rintro ⟨hx, hs⟩
        rcases List.mem_cons.mp hx with rfl | hx'
        · exact List.mem_cons_self _ _
        · by_cases hxa : x = a
          · subst hxa
            exact List.mem_cons_self _ _
          · refine List.mem_cons_of_mem _ (ih.mpr ⟨hx', ?_⟩)
            intro hc
            rcases List.mem_cons.mp hc with h3 | h3
            · exact hxa h3
            · exact hs h3

theorem mem_dedupFirst {l : List String} {x : String} :
    x ∈ dedupFirst l ↔ x ∈ l := by
  rw [dedupFirst, mem_dedupFirst_go]
  simp

theorem nodup_dedupFirst_go (seen l : List String) :
    (dedupFirst.go seen l).Nodup := by
  induction l generalizing seen with
  | nil => exact List.nodup_nil
  | cons a t ih =>
    by_cases h : a ∈ seen
    · rw [dedupFirst.go, if_pos h]
      exact ih seen
    · rw [dedupFirst.go, if_neg h]
      refine List.nodup_cons.mpr ⟨fun hc => ?_, ih (a :: seen)⟩
      exact (mem_dedupFirst_go.mp hc).2 (List.mem_cons_self _ _)

theorem nodup_dedupFirst (l : List String) : (dedupFirst l).Nodup :=
  nodup_dedupFirst_go [] l

theorem length_dedupFirst_go_le (seen l : List String) :
    (dedupFirst.go seen l).length ≤ l.length := by
  induction l generalizing seen with
  | nil => simp [dedupFirst.go]
  | cons a t ih =>
    by_cases h : a ∈ seen
    · rw [dedupFirst.go, if_pos h]
      exact le_trans (ih seen) (Nat.le_succ _)
    · rw [dedupFirst.go, if_neg h]
      simpa using Nat.succ_le_succ (ih (a :: seen))

theorem length_dedupFirst_le (l : List String) : (dedupFirst l).length ≤ l.length :=
  length_dedupFirst_go_le [] l

/-- The sorted deduplicated item list is a strictly increasing chain. -/
theorem pairwise_strLT_sortStrings_dedupFirst (l : List String) :
    (sortStrings (dedupFirst l)).Pairwise strLT := by
  have hs : (sortStrings (dedupFirst l)).Pairwise strLE :=
    sortStrings_sorted (dedupFirst l)
  have hn : (sortStrings (dedupFirst l)).Nodup :=
    ((sortStrings_perm (dedupFirst l)).nodup_iff).mpr (nodup_dedupFirst l)
  exact hs.and hn

theorem mem_of_mem_pairsOf {l : List String} {a b : String}
    (h : (a, b) ∈ pairsOf l) : a ∈ l ∧ b ∈ l := by
  induction l with
  | nil => simp [pairsOf] at h
  | cons x xs ih =>
    rw [pairsOf] at h
    rcases List.mem_append.mp h with h1 | h1
    · rcases List.mem_map.mp h1 with ⟨y, hy, hxy⟩
      cases hxy
      exact ⟨List.mem_cons_self _ _, List.mem_cons_of_mem _ hy⟩
    · rcases ih h1 with ⟨h2, h3⟩
      exact ⟨List.mem_cons_of_mem _ h2, List.mem_cons_of_mem _ h3⟩

theorem mem_pairsOf_iff {l : List String} (hl : l.Pairwise strLT) {a b : String} :
    (a, b) ∈ pairsOf l ↔ a ∈ l ∧ b ∈ l ∧ strLT a b := by
  induction l with
  | nil => simp [pairsOf]
  | cons x xs ih =>
    rcases List.pairwise_cons.mp hl with ⟨hx, htail⟩
    rw [pairsOf]
    constructor
    · intro h
      rcases List.mem_append.mp h with h1 | h1
      · rcases List.mem_map.mp h1 with ⟨y, hy, hxy⟩
        have h5 : x = a := congrArg Prod.fst hxy
        have h6 : y = b := congrArg Prod.snd hxy
        subst h5
        subst h6
        exact ⟨List.mem_cons_self _ _, List.mem_cons_of_mem _ hy, hx _ hy⟩
      · rcases (ih htail).mp h1 with ⟨h2, h3, h4⟩
        exact ⟨List.mem_cons_of_mem _ h2, List.mem_cons_of_mem _ h3, h4⟩
    · rintro ⟨ha, hb, hab⟩
      rcases List.mem_cons.mp ha with rfl | ha'
      · rcases List.mem_cons.mp hb with rfl | hb'
        · exact absurd rfl hab.2
        · exact List.mem_append.mpr (Or.inl (List.mem_map.mpr ⟨b, hb', rfl⟩))
      · rcases List.mem_cons.mp hb with rfl | hb'
        · exact absurd (hx a ha') (fun hc => strLT_asymm hab hc)
        · exact List.mem_append.mpr (Or.inr ((ih htail).mpr ⟨ha', hb', hab⟩))

theorem mem_of_mem_triplesOf {l : List String} {a b c : String}
    (h : (a, b, c) ∈ triplesOf l) : a ∈ l ∧ b ∈ l ∧ c ∈ l := by
  induction l with
  | nil => simp [triplesOf] at h
  | cons x xs ih =>
    rw [triplesOf] at h
    rcases List.mem_append.mp h with h1 | h1
    · rcases List.mem_map.mp h1 with ⟨p, hp, hxp⟩
      cases hxp
      rcases mem_of_mem_pairsOf hp with ⟨h2, h3⟩
      exact ⟨List.mem_cons_self _ _, List.mem_cons_of_mem _ h2, List.mem_cons_of_mem _ h3⟩
    · rcases ih h1 with ⟨h2, h3, h4⟩
      exact ⟨List.mem_cons_of_mem _ h2, List.mem_cons_of_mem _ h3, List.mem_cons_of_mem _ h4⟩

theorem mem_triplesOf_iff {l : List String} (hl : l.Pairwise strLT) {a b c : String} :
    (a, b, c) ∈ triplesOf l ↔
      a ∈ l ∧ b ∈ l ∧ c ∈ l ∧ strLT a b ∧ strLT b c := by
  induction l with
  | nil => simp [triplesOf]
  | cons x xs ih =>
    rcases List.pairwise_cons.mp hl with ⟨hx, htail⟩
    rw [triplesOf]
    constructor
    · intro h
      rcases List.mem_append.mp h with h1 | h1
      · rcases List.mem_map.mp h1 with ⟨p, hp, hxp⟩
        cases hxp
        rcases (mem_pairsOf_iff htail).mp hp with ⟨h2, h3, h4⟩
        exact ⟨List.mem_cons_self _ _, List.mem_cons_of_mem _ h2,
          List.mem_cons_of_mem _ h3, hx p.1 h2, h4⟩
      · rcases ih htail |>.mp h1 with ⟨h2, h3, h4, h5, h6⟩
        exact ⟨List.mem_cons_of_mem _ h2, List.mem_cons_of_mem _ h3,
          List.mem_cons_of_mem _ h4, h5, h6⟩
    · rintro ⟨ha, hb, hc, hab, hbc⟩
      rcases List.mem_cons.mp ha with rfl | ha'
      · have hb' : b ∈ xs := by
          rcases List.mem_cons.mp hb with rfl | hb'
          · exact absurd rfl hab.2
          · exact hb'
        have hc' : c ∈ xs := by
          rcases List.mem_cons.mp hc with rfl | hc'
          · exact absurd (hx b hb') (fun h2 => strLT_asymm hbc h2)
          · exact hc'
        exact List.mem_append.mpr
          (Or.inl (List.mem_map.mpr ⟨(b, c), (mem_pairsOf_iff htail).mpr ⟨hb', hc', hbc⟩, rfl⟩))
      · have hb' : b ∈ xs := by
          rcases List.mem_cons.mp hb with rfl | hb'
          · exact absurd (hx a ha') (fun h2 => strLT_asymm hab h2)
          · exact hb'
        have hc' : c ∈ xs := by
          rcases List.mem_cons.mp hc with rfl | hc'
          · exact absurd (hx b hb') (fun h2 => strLT_asymm hbc h2)
          · exact hc'
        exact List.mem_append.mpr (Or.inr ((ih htail).mpr ⟨ha', hb', hc', hab, hbc⟩))

theorem length_pairsOf (l : List String) :
    (pairsOf l).length = Nat.choose l.length 2 := by
  induction l with
  | nil => simp [pairsOf]
  | cons x xs ih =>
    rw [pairsOf, List.length_append, List.length_map, ih, List.length_cons,
      Nat.choose_succ_succ, Nat.choose_one_right]

theorem length_triplesOf (l : List String) :
    (triplesOf l).length = Nat.choose l.length 3 := by
  induction l with
  | nil => simp [triplesOf]
  | cons x xs ih =>
    rw [triplesOf, List.length_append, List.length_map, length_pairsOf, ih,
      List.length_cons, Nat.choose_succ_succ]

theorem not_mem_of_pairwise_strLT {l : List String} {x : String}
    (_h : l.Pairwise strLT) (hx : ∀ b ∈ l, strLT x b) : x ∉ l := by
  intro hc
  exact (hx x hc).2 rfl

theorem nodup_pairsOf {l : List String} (hl : l.Pairwise strLT) :
    (pairsOf l).Nodup := by
  induction l with
  | nil => simp [pairsOf]
  | cons x xs ih =>
    rcases List.pairwise_cons.mp hl with ⟨hx, htail⟩
    rw [pairsOf]
    rw [List.nodup_append]
    refine ⟨?_, ih htail, ?_⟩
    · refine List.Nodup.map ?_ (htail.imp fun h => h.2)
      intro a b hab
      exact congrArg Prod.snd hab
    · intro q hq hq2
      rcases List.mem_map.mp hq with ⟨y, _, rfl⟩
      have := (mem_of_mem_pairsOf hq2).1
      exact not_mem_of_pairwise_strLT htail hx this

theorem nodup_triplesOf {l : List String} (hl : l.Pairwise strLT) :
    (triplesOf l).Nodup := by
  induction l with
  | nil => simp [triplesOf]
  | cons x xs ih =>
    rcases List.pairwise_cons.mp hl with ⟨hx, htail⟩
    rw [triplesOf]
    rw [List.nodup_append]
    refine ⟨?_, ih htail, ?_⟩
    · refine List.Nodup.map ?_ (nodup_pairsOf htail)
      intro a b hab
      have h1 := congrArg (fun q => q.2.1) hab
      have h2 := congrArg (fun q => q.2.2) hab
      simp only at h1 h2
      cases a
      cases b
      simp_all
    · intro q hq hq2
      rcases List.mem_map.mp hq with ⟨p, _, rfl⟩
      have := (mem_of_mem_triplesOf hq2).1
      exact not_mem_of_pairwise_strLT htail hx this

theorem triplesOf_eq_nil_of_short {l : List String} (h : l.length < 3) :
    triplesOf l = [] :=
  List.length_eq_zero.mp (by rw [length_triplesOf]; exact Nat.choose_eq_zero_of_lt h)

theorem length_sortStrings (l : List String) : (sortStrings l).length = l.length :=
  (sortStrings_perm l).length_eq

theorem mem_sortStrings {l : List String} {x : String} :
    x ∈ sortStrings l ↔ x ∈ l :=
  (sortStrings_perm l).mem_iff

theorem combosOf3_eq_nil_of_short {items : List String}
    (h : (dedupFirst items).length < 3) : combosOf3 items = [] := by
  have h2 : triplesOf (sortStrings (dedupFirst items)) = [] := by
    apply triplesOf_eq_nil_of_short
    rw [length_sortStrings]
    exact h
  simp only [combosOf3, h2, List.map_nil]

theorem comboStep_eq_of_no_combos (uc : UnitComboBag) (s : Slice)
    (h : ∀ u ∈ s.units, combosOf3 u.items = []) : comboStep uc s = uc := by
  unfold comboStep
  generalize hus : s.units = us at h ⊢
  clear hus
  induction us generalizing uc with
  | nil => rfl
  | cons u ut ih =>
    rw [List.foldl_cons]
    have hu := h u (List.mem_cons_self _ _)
    have hrest : ∀ w ∈ ut, combosOf3 w.items = [] :=
      fun w hw => h w (List.mem_cons_of_mem _ hw)
    by_cases hlen : u.items.length < 3
    · rw [if_pos hlen]
      exact ih _ hrest
    · rw [if_neg hlen]
      simp only [hu, List.length_nil, if_pos rfl]
      exact ih _ hrest

/-- C6: combo enumeration is complete and canonical.  The triples enumerated
over the sorted deduplicated items are pairwise distinct, number exactly
`C(n,3)` for `n` distinct items, and are exactly the strictly increasing
3-chains of items, each keyed by joining its members in sorted order with
`"|"`; `{a,b,c,d}` yields exactly the four keys `a|b|c, a|b|d, a|c|d, b|c|d`;
a unit with fewer than 3 distinct items has an empty enumeration and its
`comboStep` leaves the combo map unchanged. -/
theorem combosOf3_complete :
    (∀ items : List String,
      (triplesOf (sortStrings (dedupFirst items))).Nodup ∧
      (combosOf3 items).length = Nat.choose (dedupFirst items).length 3 ∧
      (∀ s : String, s ∈ combosOf3 items ↔
        ∃ a b c : String, a ∈ items ∧ b ∈ items ∧ c ∈ items ∧ strLT a b ∧ strLT b c ∧
          s = a ++ "|" ++ b ++ "|" ++ c) ∧
      ((dedupFirst items).length < 3 → combosOf3 items = [])) ∧
    (∀ (uc : UnitComboBag) (s : Slice),
      (∀ u ∈ s.units, combosOf3 u.items = []) → comboStep uc s = uc) ∧
    combosOf3 ["a", "b", "c", "d"] = ["a|b|c", "a|b|d", "a|c|d", "b|c|d"] := by
  refine ⟨fun items => ⟨?_, ?_, ?_, fun h => combosOf3_eq_nil_of_short h⟩,
    comboStep_eq_of_no_combos, by decide⟩
  · exact nodup_triplesOf (pairwise_strLT_sortStrings_dedupFirst items)
  · simp only [combosOf3]
    rw [List.length_map, length_triplesOf, length_sortStrings]
  · intro s
    simp only [combosOf3, List.mem_map]
    constructor
    · rintro ⟨t, ht, rfl⟩
      obtain ⟨a, b, c⟩ := t
      rcases (mem_triplesOf_iff (pairwise_strLT_sortStrings_dedupFirst items)).mp ht with
        ⟨ha, hb, hc, hab, hbc⟩
      exact ⟨a, b, c, mem_dedupFirst.mp (mem_sortStrings.mp ha),
        mem_dedupFirst.mp (mem_sortStrings.mp hb),
        mem_dedupFirst.mp (mem_sortStrings.mp hc), hab, hbc, rfl⟩
    · rintro ⟨a, b, c, ha, hb, hc, hab, hbc, rfl⟩
      exact ⟨(a, b, c),
        (mem_triplesOf_iff (pairwise_strLT_sortStrings_dedupFirst items)).mpr
          ⟨mem_sortStrings.mpr (mem_dedupFirst.mpr ha),
           mem_sortStrings.mpr (mem_dedupFirst.mpr hb),
           mem_sortStrings.mpr (mem_dedupFirst.mpr hc), hab, hbc⟩, rfl⟩

/-- Witness for `combosOf3_complete` at concrete inputs. -/
theorem combosOf3_complete_witness :
    combosOf3 ["a", "a", "b"] = [] ∧
    comboStep [] ⟨"15.4", some 1, [⟨"A", ["x", "y"]⟩]⟩ = [] :=
  ⟨(combosOf3_complete.1 ["a", "a", "b"]).2.2.2 (by decide),
   combosOf3_complete.2.1 [] ⟨"15.4", some 1, [⟨"A", ["x", "y"]⟩]⟩ (by decide)⟩


/-! ## Extensional content of the aggregation state -/

/-- Item count stored in an `ItemCount` bag (0 when absent). -/
def gItem (b : ItemCount) (it : String) : Nat :=
  (alGet b it).getD 0

/-- Item count stored in a `UnitBag` (0 when the unit or item is absent). -/
def bagItemCnt (ub : UnitBag) (cid item : String) : Nat :=
  gItem ((alGet ub cid).getD []) item

/-- `picks` recorded for a composition key (0 when absent). -/
def cPicksOf (m : CompBuckets) (k : String) : Nat :=
  ((alGet m k).map (·.picks)).getD 0

/-- `wins` recorded for a composition key (0 when absent). -/
def cWinsOf (m : CompBuckets) (k : String) : Nat :=
  ((alGet m k).map (·.wins)).getD 0

/-- `sumPlacement` recorded for a composition key (0 when absent). -/
def cSumOf (m : CompBuckets) (k : String) : Nat :=
  ((alGet m k).map (·.sumPlacement)).getD 0

/-- Per-unit item count recorded for a composition key (0 when absent). -/
def cItemOf (m : CompBuckets) (k cid item : String) : Nat :=
  ((alGet m k).map (fun c => bagItemCnt c.units cid item)).getD 0

/-- `picks` recorded for a (unit, combo) pair (0 when absent). -/
def uPicksOf (uc : UnitComboBag) (cid ck : String) : Nat :=
  ((alGet ((alGet uc cid).getD []) ck).map (·.picks)).getD 0

/-- `wins` recorded for a (unit, combo) pair (0 when absent). -/
def uWinsOf (uc : UnitComboBag) (cid ck : String) : Nat :=
  ((alGet ((alGet uc cid).getD []) ck).map (·.wins)).getD 0

/-- `sumPlacement` recorded for a (unit, combo) pair (0 when absent). -/
def uSumOf (uc : UnitComboBag) (cid ck : String) : Nat :=
  ((alGet ((alGet uc cid).getD []) ck).map (·.sumPlacement)).getD 0

/-! ## Per-slice contributions -/

/-- Total number of copies of `item` held by units named `cid` in a slice. -/
def sliceItemCnt (s : Slice) (cid item : String) : Nat :=
  ((s.units.filter (fun u => u.character_id == cid)).map (fun u => u.items.count item)).sum

/-- How many unit instances named `cid` in the slice enumerate combo `ck`. -/
def comboHits (s : Slice) (cid ck : String) : Nat :=
  ((s.units.filter (fun u => u.character_id == cid)).map
    (fun u => (combosOf3 u.items).count ck)).sum

/-- `picks` contributed to key `k` by a slice list. -/
def compPicksIn (l : List Slice) (k : String) : Nat :=
  (l.filter (fun s => compKeyOf s == k)).length

/-- `wins` contributed to key `k` by a slice list. -/
def compWinsIn (l : List Slice) (k : String) : Nat :=
  ((l.filter (fun s => compKeyOf s == k)).map winsInc).sum

/-- `sumPlacement` contributed to key `k` by a slice list. -/
def compSumIn (l : List Slice) (k : String) : Nat :=
  ((l.filter (fun s => compKeyOf s == k)).map placeVal).sum

/-- Item count contributed to key `k` by a slice list. -/
def compItemIn (l : List Slice) (k cid item : String) : Nat :=
  ((l.filter (fun s => compKeyOf s == k)).map (fun s => sliceItemCnt s cid item)).sum

/-- Combo `picks` contributed by a slice list. -/
def comboPicksIn (l : List Slice) (cid ck : String) : Nat :=
  (l.map (fun s => comboHits s cid ck)).sum

/-- Combo `wins` contributed by a slice list. -/
def comboWinsIn (l : List Slice) (cid ck : String) : Nat :=
  (l.map (fun s => winsInc s * comboHits s cid ck)).sum

/-- Combo `sumPlacement` contributed by a slice list. -/
def comboSumIn (l : List Slice) (cid ck : String) : Nat :=
  (l.map (fun s => placeVal s * comboHits s cid ck)).sum

/-! ## Getter/`alSet` interaction -/

theorem cPicksOf_alSet (m : CompBuckets) (k k' : String) (v : CompCounts) :
    cPicksOf (alSet m k v) k' = if k = k' then v.picks else cPicksOf m k' := by
  unfold cPicksOf
  rw [alGet_alSet]
  split <;> rfl

theorem cWinsOf_alSet (m : CompBuckets) (k k' : String) (v : CompCounts) :
    cWinsOf (alSet m k v) k' = if k = k' then v.wins else cWinsOf m k' := by
  unfold cWinsOf
  rw [alGet_alSet]
  split <;> rfl

theorem cSumOf_alSet (m : CompBuckets) (k k' : String) (v : CompCounts) :
    cSumOf (alSet m k v) k' = if k = k' then v.sumPlacement else cSumOf m k' := by
  unfold cSumOf
  rw [alGet_alSet]
  split <;> rfl

theorem cItemOf_alSet (m : CompBuckets) (k k' : String) (v : CompCounts)
    (cid item : String) :
    cItemOf (alSet m k v) k' cid item =
      if k = k' then bagItemCnt v.units cid item else cItemOf m k' cid item := by
  unfold cItemOf
  rw [alGet_alSet]
  split <;> rfl

/-! ## Single-slice deltas: the comp side -/

theorem gItem_inc (b : ItemCount) (it it' : String) :
    gItem (inc b it 1) it' = gItem b it' + (if it = it' then 1 else 0) := by
  unfold inc gItem
  rw [alGet_alSet]
  split
  · rename_i h
    subst h
    rfl
  · rfl

theorem gItem_bumpItems (b : ItemCount) (items : List String) (it : String) :
    gItem (bumpItems b items) it = gItem b it + items.count it := by
  induction items generalizing b with
  | nil => simp [bumpItems]
  | cons i is ih =>
    rw [bumpItems, List.foldl_cons]
    have h2 : is.foldl (fun b it => inc b it 1) (inc b i 1) = bumpItems (inc b i 1) is := rfl
    rw [h2, ih, gItem_inc, List.count_cons]
    have h3 : (if i = it then 1 else 0) = (if i == it then 1 else 0) := by
      by_cases h : i = it <;> simp [h]
    rw [h3]
    omega

theorem bagItemCnt_alSet (ub : UnitBag) (k k' item : String) (v : ItemCount) :
    bagItemCnt (alSet ub k v) k' item =
      if k = k' then gItem v item else bagItemCnt ub k' item := by
  unfold bagItemCnt
  rw [alGet_alSet]
  split <;> rfl

theorem bagItemCnt_unitsFold (ub : UnitBag) (us : List Unit) (cid item : String) :
    bagItemCnt (unitsFold ub us) cid item =
      bagItemCnt ub cid item +
        ((us.filter (fun u => u.character_id == cid)).map
          (fun u => u.items.count item)).sum := by
  induction us generalizing ub with
  | nil => simp [unitsFold]
  | cons u ut ih =>
    rw [unitsFold, List.foldl_cons]
    have h2 : ut.foldl
        (fun ub u => alSet ub u.character_id
          (bumpItems ((alGet ub u.character_id).getD []) u.items))
        (alSet ub u.character_id
          (bumpItems ((alGet ub u.character_id).getD []) u.items)) =
        unitsFold (alSet ub u.character_id
          (bumpItems ((alGet ub u.character_id).getD []) u.items)) ut := rfl
    rw [h2, ih, bagItemCnt_alSet, List.filter_cons]
    by_cases hc : u.character_id = cid
    · subst hc
      simp only [if_pos rfl, beq_self_eq_true, if_true, List.map_cons, List.sum_cons,
        gItem_bumpItems]
      have h3 : gItem ((alGet ub u.character_id).getD []) item =
          bagItemCnt ub u.character_id item := rfl
      rw [h3]
      omega
    · have hb : (u.character_id == cid) = false := by simp [hc]
      simp only [if_neg hc, hb, Bool.false_eq_true, if_false]

/-- `compStep` written without the `let` bindings. -/
theorem compStep_eq (m : CompBuckets) (s : Slice) :
    compStep m s =
      alSet m (compKeyOf s)
        { patch := ((alGet m (compKeyOf s)).getD (freshComp s (compKeyOf s))).patch
          comp_key := ((alGet m (compKeyOf s)).getD (freshComp s (compKeyOf s))).comp_key
          picks := ((alGet m (compKeyOf s)).getD (freshComp s (compKeyOf s))).picks + 1
          wins := ((alGet m (compKeyOf s)).getD (freshComp s (compKeyOf s))).wins + winsInc s
          sumPlacement :=
            ((alGet m (compKeyOf s)).getD (freshComp s (compKeyOf s))).sumPlacement + placeVal s
          units :=
            unitsFold ((alGet m (compKeyOf s)).getD (freshComp s (compKeyOf s))).units s.units
          unit_set := ((alGet m (compKeyOf s)).getD (freshComp s (compKeyOf s))).unit_set } := rfl

theorem cPicksOf_compStep (m : CompBuckets) (s : Slice) (k : String) :
    cPicksOf (compStep m s) k = cPicksOf m k + (if compKeyOf s = k then 1 else 0) := by
  rw [compStep_eq, cPicksOf_alSet]
  by_cases h : compKeyOf s = k
  · rw [if_pos h, if_pos h]
    subst h
    rcases h2 : alGet m (compKeyOf s) with _ | c <;> simp [cPicksOf, h2, freshComp]
  · rw [if_neg h, if_neg h]
    omega

theorem cWinsOf_compStep (m : CompBuckets) (s : Slice) (k : String) :
    cWinsOf (compStep m s) k = cWinsOf m k + (if compKeyOf s = k then winsInc s else 0) := by
  rw [compStep_eq, cWinsOf_alSet]
  by_cases h : compKeyOf s = k
  · rw [if_pos h, if_pos h]
    subst h
    rcases h2 : alGet m (compKeyOf s) with _ | c <;> simp [cWinsOf, h2, freshComp]
  · rw [if_neg h, if_neg h]
    omega

theorem cSumOf_compStep (m : CompBuckets) (s : Slice) (k : String) :
    cSumOf (compStep m s) k = cSumOf m k + (if compKeyOf s = k then placeVal s else 0) := by
  rw [compStep_eq, cSumOf_alSet]
  by_cases h : compKeyOf s = k
  · rw [if_pos h, if_pos h]
    subst h
    rcases h2 : alGet m (compKeyOf s) with _ | c <;> simp [cSumOf, h2, freshComp]
  · rw [if_neg h, if_neg h]
    omega

theorem cItemOf_compStep (m : CompBuckets) (s : Slice) (k cid item : String) :
    cItemOf (compStep m s) k cid item =
      cItemOf m k cid item + (if compKeyOf s = k then sliceItemCnt s cid item else 0) := by
  rw [compStep_eq, cItemOf_alSet]
  by_cases h : compKeyOf s = k
  · rw [if_pos h, if_pos h]
    subst h
    rw [bagItemCnt_unitsFold]
    rcases h2 : alGet m (compKeyOf s) with _ | c <;>
      simp [cItemOf, h2, freshComp, sliceItemCnt, bagItemCnt, gItem, alGet]
  · rw [if_neg h, if_neg h]
    omega

theorem isSome_compStep (m : CompBuckets) (s : Slice) (k : String) :
    (alGet (compStep m s) k).isSome = true ↔
      (alGet m k).isSome = true ∨ compKeyOf s = k := by
  rw [compStep_eq, alGet_alSet]
  by_cases h : compKeyOf s = k <;> simp [h]

/-! ## Folding a slice list: the comp side -/

theorem compBuckets_aggStep (st : AggState) (s : Slice) :
    (aggStep st s).compBuckets = compStep st.compBuckets s := rfl

theorem unitCombos_aggStep (st : AggState) (s : Slice) :
    (aggStep st s).unitCombos = comboStep st.unitCombos s := rfl

theorem cPicksOf_foldl (l : List Slice) (st : AggState) (k : String) :
    cPicksOf (l.foldl aggStep st).compBuckets k =
      cPicksOf st.compBuckets k + compPicksIn l k := by
  induction l generalizing st with
  | nil => simp [compPicksIn]
  | cons s t ih =>
    rw [List.foldl_cons, ih, compBuckets_aggStep, cPicksOf_compStep]
    unfold compPicksIn
    rw [List.filter_cons]
    by_cases h : compKeyOf s = k <;> simp [h] <;> omega

theorem cWinsOf_foldl (l : List Slice) (st : AggState) (k : String) :
    cWinsOf (l.foldl aggStep st).compBuckets k =
      cWinsOf st.compBuckets k + compWinsIn l k := by
  induction l generalizing st with
  | nil => simp [compWinsIn]
  | cons s t ih =>
    rw [List.foldl_cons, ih, compBuckets_aggStep, cWinsOf_compStep]
    unfold compWinsIn
    rw [List.filter_cons]
    by_cases h : compKeyOf s = k <;> simp [h] <;> omega

theorem cSumOf_foldl (l : List Slice) (st : AggState) (k : String) :
    cSumOf (l.foldl aggStep st).compBuckets k =
      cSumOf st.compBuckets k + compSumIn l k := by
  induction l generalizing st with
  | nil => simp [compSumIn]
  | cons s t ih =>
    rw [List.foldl_cons, ih, compBuckets_aggStep, cSumOf_compStep]
    unfold compSumIn
    rw [List.filter_cons]
    by_cases h : compKeyOf s = k <;> simp [h] <;> omega

theorem cItemOf_foldl (l : List Slice) (st : AggState) (k cid item : String) :
    cItemOf (l.foldl aggStep st).compBuckets k cid item =
      cItemOf st.compBuckets k cid item + compItemIn l k cid item := by
  induction l generalizing st with
  | nil => simp [compItemIn]
  | cons s t ih =>
    rw [List.foldl_cons, ih, compBuckets_aggStep, cItemOf_compStep]
    unfold compItemIn
    rw [List.filter_cons]
    by_cases h : compKeyOf s = k <;> simp [h] <;> omega

theorem isSome_comp_foldl (l : List Slice) (st : AggState) (k : String) :
    (alGet (l.foldl aggStep st).compBuckets k).isSome = true ↔
      (alGet st.compBuckets k).isSome = true ∨ ∃ s ∈ l, compKeyOf s = k := by
  induction l generalizing st with
  | nil => simp
  | cons s t ih =>
    rw [List.foldl_cons, ih, compBuckets_aggStep, isSome_compStep]
    simp only [List.mem_cons]
    constructor
    · rintro (⟨h1 | h1⟩ | ⟨s', hs', h2⟩)
      · exact Or.inl h1
      · exact Or.inr ⟨s, Or.inl rfl, h1⟩
      · exact Or.inr ⟨s', Or.inr hs', h2⟩
    · rintro (h1 | ⟨s', hs' | hs', h2⟩)
      · exact Or.inl (Or.inl h1)
      · subst hs'
        exact Or.inl (Or.inr h2)
      · exact Or.inr ⟨s', hs', h2⟩
/-! ## Single-slice deltas: the combo side -/

/-- `picks` stored in an inner combo bag (0 when absent). -/
def iPicks (b : List (String × ComboCounts)) (ck : String) : Nat :=
  ((alGet b ck).map (·.picks)).getD 0

/-- `wins` stored in an inner combo bag (0 when absent). -/
def iWins (b : List (String × ComboCounts)) (ck : String) : Nat :=
  ((alGet b ck).map (·.wins)).getD 0

/-- `sumPlacement` stored in an inner combo bag (0 when absent). -/
def iSum (b : List (String × ComboCounts)) (ck : String) : Nat :=
  ((alGet b ck).map (·.sumPlacement)).getD 0

theorem uPicksOf_eq (uc : UnitComboBag) (cid ck : String) :
    uPicksOf uc cid ck = iPicks ((alGet uc cid).getD []) ck := rfl

theorem uWinsOf_eq (uc : UnitComboBag) (cid ck : String) :
    uWinsOf uc cid ck = iWins ((alGet uc cid).getD []) ck := rfl

theorem uSumOf_eq (uc : UnitComboBag) (cid ck : String) :
    uSumOf uc cid ck = iSum ((alGet uc cid).getD []) ck := rfl

/-- The body of the inner combo loop of `aggregateCountsAndCombos`. -/
def comboBump (s : Slice) (b : List (String × ComboCounts)) (ck : String) :
    List (String × ComboCounts) :=
  alSet b ck
    ⟨((alGet b ck).getD ⟨0, 0, 0⟩).picks + 1,
     ((alGet b ck).getD ⟨0, 0, 0⟩).wins + winsInc s,
     ((alGet b ck).getD ⟨0, 0, 0⟩).sumPlacement + placeVal s⟩

/-- `comboStep` written without the `let` bindings. -/
theorem comboStep_eq (uc : UnitComboBag) (s : Slice) :
    comboStep uc s =
      s.units.foldl
        (fun uc u =>
          if u.items.length < 3 then uc
          else if (combosOf3 u.items).length = 0 then uc
          else
            alSet uc u.character_id
              ((combosOf3 u.items).foldl (comboBump s) ((alGet uc u.character_id).getD [])))
        uc := rfl

theorem iPicks_comboBump (s : Slice) (b : List (String × ComboCounts)) (ck ck' : String) :
    iPicks (comboBump s b ck) ck' = iPicks b ck' + (if ck = ck' then 1 else 0) := by
  unfold comboBump iPicks
  rw [alGet_alSet]
  split
  · rename_i h
    subst h
    rcases h2 : alGet b ck with _ | c <;> simp [h2]
  · rfl

theorem iWins_comboBump (s : Slice) (b : List (String × ComboCounts)) (ck ck' : String) :
    iWins (comboBump s b ck) ck' = iWins b ck' + (if ck = ck' then winsInc s else 0) := by
  unfold comboBump iWins
  rw [alGet_alSet]
  split
  · rename_i h
    subst h
    rcases h2 : alGet b ck with _ | c <;> simp [h2]
  · rfl

theorem iSum_comboBump (s : Slice) (b : List (String × ComboCounts)) (ck ck' : String) :
    iSum (comboBump s b ck) ck' = iSum b ck' + (if ck = ck' then placeVal s else 0) := by
  unfold comboBump iSum
  rw [alGet_alSet]
  split
  · rename_i h
    subst h
    rcases h2 : alGet b ck with _ | c <;> simp [h2]
  · rfl

theorem isSome_comboBump (s : Slice) (b : List (String × ComboCounts)) (ck ck' : String) :
    (alGet (comboBump s b ck) ck').isSome = true ↔
      (alGet b ck').isSome = true ∨ ck = ck' := by
  unfold comboBump
  rw [alGet_alSet]
  by_cases h : ck = ck' <;> simp [h]

theorem iPicks_comboFold (s : Slice) (combos : List String)
    (bag : List (String × ComboCounts)) (ck : String) :
    iPicks (combos.foldl (comboBump s) bag) ck = iPicks bag ck + combos.count ck := by
  induction combos generalizing bag with
  | nil => simp
  | cons c cs ih =>
    rw [List.foldl_cons, ih, iPicks_comboBump, List.count_cons]
    by_cases h : c = ck <;> simp [h] <;> omega

theorem iWins_comboFold (s : Slice) (combos : List String)
    (bag : List (String × ComboCounts)) (ck : String) :
    iWins (combos.foldl (comboBump s) bag) ck =
      iWins bag ck + winsInc s * combos.count ck := by
  induction combos generalizing bag with
  | nil => simp
  | cons c cs ih =>
    rw [List.foldl_cons, ih, iWins_comboBump, List.count_cons]
    by_cases h : c = ck <;> simp [h] <;> ring_nf <;> omega

theorem iSum_comboFold (s : Slice) (combos : List String)
    (bag : List (String × ComboCounts)) (ck : String) :
    iSum (combos.foldl (comboBump s) bag) ck =
      iSum bag ck + placeVal s * combos.count ck := by
  induction combos generalizing bag with
  | nil => simp
  | cons c cs ih =>
    rw [List.foldl_cons, ih, iSum_comboBump, List.count_cons]
    by_cases h : c = ck <;> simp [h] <;> ring_nf <;> omega

theorem isSome_comboFold (s : Slice) (combos : List String)
    (bag : List (String × ComboCounts)) (ck : String) :
    (alGet (combos.foldl (comboBump s) bag) ck).isSome = true ↔
      (alGet bag ck).isSome = true ∨ ck ∈ combos := by
  induction combos generalizing bag with
  | nil => simp
  | cons c cs ih =>
    rw [List.foldl_cons, ih, isSome_comboBump]
    simp only [List.mem_cons]
    constructor
    · rintro (⟨h1 | h1⟩ | h1)
      · exact Or.inl h1
      · exact Or.inr (Or.inl h1.symm)
      · exact Or.inr (Or.inr h1)
    · rintro (h1 | h1 | h1)
      · exact Or.inl (Or.inl h1)
      · exact Or.inl (Or.inr h1.symm)
      · exact Or.inr h1

theorem combosOf3_eq_nil_of_items_short {items : List String} (h : items.length < 3) :
    combosOf3 items = [] :=
  combosOf3_eq_nil_of_short (lt_of_le_of_lt (length_dedupFirst_le items) h)

theorem outerBag_alSet (uc : UnitComboBag) (k cid : String)
    (bag : List (String × ComboCounts)) :
    (alGet (alSet uc k bag) cid).getD [] =
      if k = cid then bag else (alGet uc cid).getD [] := by
  rw [alGet_alSet]
  split <;> rfl

theorem uPicksOf_comboStep (uc : UnitComboBag) (s : Slice) (cid ck : String) :
    uPicksOf (comboStep uc s) cid ck = uPicksOf uc cid ck + comboHits s cid ck := by
  rw [comboStep_eq]
  unfold comboHits
  generalize s.units = us
  induction us generalizing uc with
  | nil => simp
  | cons u ut ih =>
    rw [List.foldl_cons, List.filter_cons]
    by_cases h3 : u.items.length < 3
    · rw [if_pos h3, ih]
      have hcomb : combosOf3 u.items = [] := combosOf3_eq_nil_of_items_short h3
      by_cases hc : (u.character_id == cid) = true <;>
        simp [hc, hcomb]
    · rw [if_neg h3]
      by_cases h0 : (combosOf3 u.items).length = 0
      · rw [if_pos h0, ih]
        have hcomb : combosOf3 u.items = [] := List.length_eq_zero.mp h0
        by_cases hc : (u.character_id == cid) = true <;>
          simp [hc, hcomb]
      · rw [if_neg h0, ih]
        by_cases hc : u.character_id = cid
        · subst hc
          rw [uPicksOf_eq, uPicksOf_eq, outerBag_alSet, if_pos rfl, iPicks_comboFold]
          simp only [beq_self_eq_true, if_true, List.map_cons, List.sum_cons]
          omega
        · have hb : (u.character_id == cid) = false := by simp [hc]
          rw [uPicksOf_eq, uPicksOf_eq, outerBag_alSet, if_neg hc]
          simp only [hb, Bool.false_eq_true, if_false]

theorem uWinsOf_comboStep (uc : UnitComboBag) (s : Slice) (cid ck : String) :
    uWinsOf (comboStep uc s) cid ck =
      uWinsOf uc cid ck + winsInc s * comboHits s cid ck := by
  rw [comboStep_eq]
  unfold comboHits
  generalize s.units = us
  induction us generalizing uc with
  | nil => simp
  | cons u ut ih =>
    rw [List.foldl_cons, List.filter_cons]
    by_cases h3 : u.items.length < 3
    · rw [if_pos h3, ih]
      have hcomb : combosOf3 u.items = [] := combosOf3_eq_nil_of_items_short h3
      by_cases hc : (u.character_id == cid) = true <;>
        simp [hc, hcomb]
    · rw [if_neg h3]
      by_cases h0 : (combosOf3 u.items).length = 0
      · rw [if_pos h0, ih]
        have hcomb : combosOf3 u.items = [] := List.length_eq_zero.mp h0
        by_cases hc : (u.character_id == cid) = true <;>
          simp [hc, hcomb]
      · rw [if_neg h0, ih]
        by_cases hc : u.character_id = cid
        · subst hc
          rw [uWinsOf_eq, uWinsOf_eq, outerBag_alSet, if_pos rfl, iWins_comboFold]
          simp only [beq_self_eq_true, if_true, List.map_cons, List.sum_cons]
          ring_nf
        · have hb : (u.character_id == cid) = false := by simp [hc]
          rw [uWinsOf_eq, uWinsOf_eq, outerBag_alSet, if_neg hc]
          simp only [hb, Bool.false_eq_true, if_false]

theorem uSumOf_comboStep (uc : UnitComboBag) (s : Slice) (cid ck : String) :
    uSumOf (comboStep uc s) cid ck =
      uSumOf uc cid ck + placeVal s * comboHits s cid ck := by
  rw [comboStep_eq]
  unfold comboHits
  generalize s.units = us
  induction us generalizing uc with
  | nil => simp
  | cons u ut ih =>
    rw [List.foldl_cons, List.filter_cons]
    by_cases h3 : u.items.length < 3
    · rw [if_pos h3, ih]
      have hcomb : combosOf3 u.items = [] := combosOf3_eq_nil_of_items_short h3
      by_cases hc : (u.character_id == cid) = true <;>
        simp [hc, hcomb]
    · rw [if_neg h3]
      by_cases h0 : (combosOf3 u.items).length = 0
      · rw [if_pos h0, ih]
        have hcomb : combosOf3 u.items = [] := List.length_eq_zero.mp h0
        by_cases hc : (u.character_id == cid) = true <;>
          simp [hc, hcomb]
      · rw [if_neg h0, ih]
        by_cases hc : u.character_id = cid
        · subst hc
          rw [uSumOf_eq, uSumOf_eq, outerBag_alSet, if_pos rfl, iSum_comboFold]
          simp only [beq_self_eq_true, if_true, List.map_cons, List.sum_cons]
          ring_nf
        · have hb : (u.character_id == cid) = false := by simp [hc]
          rw [uSumOf_eq, uSumOf_eq, outerBag_alSet, if_neg hc]
          simp only [hb, Bool.false_eq_true, if_false]

theorem isSome_comboStep_outer (uc : UnitComboBag) (s : Slice) (cid : String) :
    (alGet (comboStep uc s) cid).isSome = true ↔
      (alGet uc cid).isSome = true ∨
        ∃ u ∈ s.units, u.character_id = cid ∧ combosOf3 u.items ≠ [] := by
  rw [comboStep_eq]
  generalize s.units = us
  induction us generalizing uc with
  | nil => simp
  | cons u ut ih =>
    rw [List.foldl_cons]
    by_cases h3 : u.items.length < 3
    · rw [if_pos h3, ih]
      have hcomb : combosOf3 u.items = [] := combosOf3_eq_nil_of_items_short h3
      simp only [List.mem_cons]
      constructor
      · rintro (h1 | ⟨w, hw, h4, h5⟩)
        · exact Or.inl h1
        · exact Or.inr ⟨w, Or.inr hw, h4, h5⟩
      · rintro (h1 | ⟨w, hw | hw, h4, h5⟩)
        · exact Or.inl h1
        · subst hw
          exact absurd hcomb h5
        · exact Or.inr ⟨w, hw, h4, h5⟩
    · rw [if_neg h3]
      by_cases h0 : (combosOf3 u.items).length = 0
      · rw [if_pos h0, ih]
        have hcomb : combosOf3 u.items = [] := List.length_eq_zero.mp h0
        simp only [List.mem_cons]
        constructor
        · rintro (h1 | ⟨w, hw, h4, h5⟩)
          · exact Or.inl h1
          · exact Or.inr ⟨w, Or.inr hw, h4, h5⟩
        · rintro (h1 | ⟨w, hw | hw, h4, h5⟩)
          · exact Or.inl h1
          · subst hw
            exact absurd hcomb h5
          · exact Or.inr ⟨w, hw, h4, h5⟩
      · rw [if_neg h0, ih]
        have hcomb : combosOf3 u.items ≠ [] := fun hc => h0 (by rw [hc]; rfl)
        rw [alGet_alSet]
        simp only [List.mem_cons]
        by_cases hc : u.character_id = cid
        · constructor
          · intro _h
            exact Or.inr ⟨u, Or.inl rfl, hc, hcomb⟩
          · intro _h
            rw [if_pos hc]
            left
            simp
        · rw [if_neg hc]
          constructor
          · rintro (h1 | ⟨w, hw, h4, h5⟩)
            · exact Or.inl h1
            · exact Or.inr ⟨w, Or.inr hw, h4, h5⟩
          · rintro (h1 | ⟨w, hw | hw, h4, h5⟩)
            · exact Or.inl h1
            · subst hw
              exact absurd h4 hc
            · exact Or.inr ⟨w, hw, h4, h5⟩

theorem isSome_comboStep_inner (uc : UnitComboBag) (s : Slice) (cid ck : String) :
    (alGet ((alGet (comboStep uc s) cid).getD []) ck).isSome = true ↔
      (alGet ((alGet uc cid).getD []) ck).isSome = true ∨
        ∃ u ∈ s.units, u.character_id = cid ∧ ck ∈ combosOf3 u.items := by
  rw [comboStep_eq]
  generalize s.units = us
  induction us generalizing uc with
  | nil => simp
  | cons u ut ih =>
    rw [List.foldl_cons]
    by_cases h3 : u.items.length < 3
    · rw [if_pos h3, ih]
      have hcomb : combosOf3 u.items = [] := combosOf3_eq_nil_of_items_short h3
      simp only [List.mem_cons]
      constructor
      · rintro (h1 | ⟨w, hw, h4, h5⟩)
        · exact Or.inl h1
        · exact Or.inr ⟨w, Or.inr hw, h4, h5⟩
      · rintro (h1 | ⟨w, hw | hw, h4, h5⟩)
        · exact Or.inl h1
        · subst hw
          rw [hcomb] at h5
          simp at h5
        · exact Or.inr ⟨w, hw, h4, h5⟩
    · rw [if_neg h3]
      by_cases h0 : (combosOf3 u.items).length = 0
      · rw [if_pos h0, ih]
        have hcomb : combosOf3 u.items = [] := List.length_eq_zero.mp h0
        simp only [List.mem_cons]
        constructor
        · rintro (h1 | ⟨w, hw, h4, h5⟩)
          · exact Or.inl h1
          · exact Or.inr ⟨w, Or.inr hw, h4, h5⟩
        · rintro (h1 | ⟨w, hw | hw, h4, h5⟩)
          · exact Or.inl h1
          · subst hw
            rw [hcomb] at h5
            simp at h5
          · exact Or.inr ⟨w, hw, h4, h5⟩
      · rw [if_neg h0, ih, outerBag_alSet]
        simp only [List.mem_cons]
        by_cases hc : u.character_id = cid
        · subst hc
          rw [if_pos rfl, isSome_comboFold]
          constructor
          · rintro ((h1 | h1) | ⟨w, hw, h4, h5⟩)
            · exact Or.inl h1
            · exact Or.inr ⟨u, Or.inl rfl, rfl, h1⟩
            · exact Or.inr ⟨w, Or.inr hw, h4, h5⟩
          · rintro (h1 | ⟨w, hw | hw, h4, h5⟩)
            · exact Or.inl (Or.inl h1)
            · subst hw
              exact Or.inl (Or.inr h5)
            · exact Or.inr ⟨w, hw, h4, h5⟩
        · rw [if_neg hc]
          constructor
          · rintro (h1 | ⟨w, hw, h4, h5⟩)
            · exact Or.inl h1
            · exact Or.inr ⟨w, Or.inr hw, h4, h5⟩
          · rintro (h1 | ⟨w, hw | hw, h4, h5⟩)
            · exact Or.inl h1
            · subst hw
              exact absurd h4 hc
            · exact Or.inr ⟨w, hw, h4, h5⟩

/-! ## Folding a slice list: the combo side -/

theorem uPicksOf_foldl (l : List Slice) (st : AggState) (cid ck : String) :
    uPicksOf (l.foldl aggStep st).unitCombos cid ck =
      uPicksOf st.unitCombos cid ck + comboPicksIn l cid ck := by
  induction l generalizing st with
  | nil => simp [comboPicksIn]
  | cons s t ih =>
    rw [List.foldl_cons, ih, unitCombos_aggStep, uPicksOf_comboStep]
    unfold comboPicksIn
    rw [List.map_cons, List.sum_cons]
    omega

theorem uWinsOf_foldl (l : List Slice) (st : AggState) (cid ck : String) :
    uWinsOf (l.foldl aggStep st).unitCombos cid ck =
      uWinsOf st.unitCombos cid ck + comboWinsIn l cid ck := by
  induction l generalizing st with
  | nil => simp [comboWinsIn]
  | cons s t ih =>
    rw [List.foldl_cons, ih, unitCombos_aggStep, uWinsOf_comboStep]
    unfold comboWinsIn
    rw [List.map_cons, List.sum_cons]
    omega

theorem uSumOf_foldl (l : List Slice) (st : AggState) (cid ck : String) :
    uSumOf (l.foldl aggStep st).unitCombos cid ck =
      uSumOf st.unitCombos cid ck + comboSumIn l cid ck := by
  induction l generalizing st with
  | nil => simp [comboSumIn]
  | cons s t ih =>
    rw [List.foldl_cons, ih, unitCombos_aggStep, uSumOf_comboStep]
    unfold comboSumIn
    rw [List.map_cons, List.sum_cons]
    omega

theorem isSome_combo_outer_foldl (l : List Slice) (st : AggState) (cid : String) :
    (alGet (l.foldl aggStep st).unitCombos cid).isSome = true ↔
      (alGet st.unitCombos cid).isSome = true ∨
        ∃ s ∈ l, ∃ u ∈ s.units, u.character_id = cid ∧ combosOf3 u.items ≠ [] := by
  induction l generalizing st with
  | nil => simp
  | cons s t ih =>
    rw [List.foldl_cons, ih, unitCombos_aggStep, isSome_comboStep_outer]
    simp only [List.mem_cons]
    constructor
    · rintro ((h1 | ⟨u, hu, h4, h5⟩) | ⟨s', hs', hrest⟩)
      · exact Or.inl h1
      · exact Or.inr ⟨s, Or.inl rfl, u, hu, h4, h5⟩
      · exact Or.inr ⟨s', Or.inr hs', hrest⟩
    · rintro (h1 | ⟨s', hs' | hs', hrest⟩)
      · exact Or.inl (Or.inl h1)
      · subst hs'
        exact Or.inl (Or.inr hrest)
      · exact Or.inr ⟨s', hs', hrest⟩

theorem isSome_combo_inner_foldl (l : List Slice) (st : AggState) (cid ck : String) :
    (alGet ((alGet (l.foldl aggStep st).unitCombos cid).getD []) ck).isSome = true ↔
      (alGet ((alGet st.unitCombos cid).getD []) ck).isSome = true ∨
        ∃ s ∈ l, ∃ u ∈ s.units, u.character_id = cid ∧ ck ∈ combosOf3 u.items := by
  induction l generalizing st with
  | nil => simp
  | cons s t ih =>
    rw [List.foldl_cons, ih, unitCombos_aggStep, isSome_comboStep_inner]
    simp only [List.mem_cons]
    constructor
    · rintro ((h1 | ⟨u, hu, h4, h5⟩) | ⟨s', hs', hrest⟩)
      · exact Or.inl h1
      · exact Or.inr ⟨s, Or.inl rfl, u, hu, h4, h5⟩
      · exact Or.inr ⟨s', Or.inr hs', hrest⟩
    · rintro (h1 | ⟨s', hs' | hs', hrest⟩)
      · exact Or.inl (Or.inl h1)
      · subst hs'
        exact Or.inl (Or.inr hrest)
      · exact Or.inr ⟨s', hs', hrest⟩

/-! ## C4: order-insensitivity of aggregation -/

/-- Extensional equality of aggregation states: same composition keys, same
`picks`/`wins`/`sumPlacement`, same per-unit item counts; same unit-combo
keys (outer and inner) and same combo counts.  This is exactly the content
the spec's "identical maps (same keys, same counts)" refers to; the
incidental metadata (`patch`, `comp_key`, `unit_set`, captured from the
first contributing slice) and the map iteration order are not part of it. -/
def ExtEq (st₁ st₂ : AggState) : Prop :=
  (∀ k, ((alGet st₁.compBuckets k).isSome = true ↔ (alGet st₂.compBuckets k).isSome = true)) ∧
  (∀ k, cPicksOf st₁.compBuckets k = cPicksOf st₂.compBuckets k) ∧
  (∀ k, cWinsOf st₁.compBuckets k = cWinsOf st₂.compBuckets k) ∧
  (∀ k, cSumOf st₁.compBuckets k = cSumOf st₂.compBuckets k) ∧
  (∀ k cid item, cItemOf st₁.compBuckets k cid item = cItemOf st₂.compBuckets k cid item) ∧
  (∀ cid, ((alGet st₁.unitCombos cid).isSome = true ↔ (alGet st₂.unitCombos cid).isSome = true)) ∧
  (∀ cid ck, ((alGet ((alGet st₁.unitCombos cid).getD []) ck).isSome = true ↔
    (alGet ((alGet st₂.unitCombos cid).getD []) ck).isSome = true)) ∧
  (∀ cid ck, uPicksOf st₁.unitCombos cid ck = uPicksOf st₂.unitCombos cid ck) ∧
  (∀ cid ck, uWinsOf st₁.unitCombos cid ck = uWinsOf st₂.unitCombos cid ck) ∧
  (∀ cid ck, uSumOf st₁.unitCombos cid ck = uSumOf st₂.unitCombos cid ck)

theorem compPicksIn_perm {l₁ l₂ : List Slice} (h : List.Perm l₁ l₂) (k : String) :
    compPicksIn l₁ k = compPicksIn l₂ k :=
  (h.filter _).length_eq

theorem compWinsIn_perm {l₁ l₂ : List Slice} (h : List.Perm l₁ l₂) (k : String) :
    compWinsIn l₁ k = compWinsIn l₂ k :=
  ((h.filter _).map _).sum_eq

theorem compSumIn_perm {l₁ l₂ : List Slice} (h : List.Perm l₁ l₂) (k : String) :
    compSumIn l₁ k = compSumIn l₂ k :=
  ((h.filter _).map _).sum_eq

theorem compItemIn_perm {l₁ l₂ : List Slice} (h : List.Perm l₁ l₂) (k cid item : String) :
    compItemIn l₁ k cid item = compItemIn l₂ k cid item :=
  ((h.filter _).map _).sum_eq

theorem comboPicksIn_perm {l₁ l₂ : List Slice} (h : List.Perm l₁ l₂) (cid ck : String) :
    comboPicksIn l₁ cid ck = comboPicksIn l₂ cid ck :=
  (h.map _).sum_eq

theorem comboWinsIn_perm {l₁ l₂ : List Slice} (h : List.Perm l₁ l₂) (cid ck : String) :
    comboWinsIn l₁ cid ck = comboWinsIn l₂ cid ck :=
  (h.map _).sum_eq

theorem comboSumIn_perm {l₁ l₂ : List Slice} (h : List.Perm l₁ l₂) (cid ck : String) :
    comboSumIn l₁ cid ck = comboSumIn l₂ cid ck :=
  (h.map _).sum_eq

theorem procSlices_perm {ms₁ ms₂ : List MatchInfo} (h : List.Perm ms₁ ms₂)
    (patchFilter : String) :
    List.Perm (procSlices ms₁ patchFilter) (procSlices ms₂ patchFilter) :=
  h.flatMap_right _

theorem aggregate_eq_foldl (ms : List MatchInfo) (patchFilter : String) :
    aggregateCountsAndCombos ms patchFilter =
      (procSlices ms patchFilter).foldl aggStep ⟨[], []⟩ := rfl

/-- C4: aggregation is order-insensitive.  For any permutation of the match
list, `aggregateCountsAndCombos` produces extensionally identical maps: the
same composition keys with the same `picks`, `wins`, `sumPlacement` and
per-unit item counts, and the same unit-combo keys with the same counts. -/
theorem aggregate_perm_invariant (ms₁ ms₂ : List MatchInfo) (patchFilter : String)
    (h : List.Perm ms₁ ms₂) :
    ExtEq (aggregateCountsAndCombos ms₁ patchFilter)
      (aggregateCountsAndCombos ms₂ patchFilter) := by
  have hp := procSlices_perm h patchFilter
  rw [aggregate_eq_foldl, aggregate_eq_foldl]
  refine ⟨fun k => ?_, fun k => ?_, fun k => ?_, fun k => ?_, fun k cid item => ?_,
    fun cid => ?_, fun cid ck => ?_, fun cid ck => ?_, fun cid ck => ?_, fun cid ck => ?_⟩
  · rw [isSome_comp_foldl, isSome_comp_foldl]
    constructor
    · rintro (h1 | ⟨s, hs, h2⟩)
      · exact Or.inl h1
      · exact Or.inr ⟨s, hp.mem_iff.mp hs, h2⟩
    · rintro (h1 | ⟨s, hs, h2⟩)
      · exact Or.inl h1
      · exact Or.inr ⟨s, hp.mem_iff.mpr hs, h2⟩
  · rw [cPicksOf_foldl, cPicksOf_foldl, compPicksIn_perm hp]
  · rw [cWinsOf_foldl, cWinsOf_foldl, compWinsIn_perm hp]
  · rw [cSumOf_foldl, cSumOf_foldl, compSumIn_perm hp]
  · rw [cItemOf_foldl, cItemOf_foldl, compItemIn_perm hp]
  · rw [isSome_combo_outer_foldl, isSome_combo_outer_foldl]
    constructor
    · rintro (h1 | ⟨s, hs, h2⟩)
      · exact Or.inl h1
      · exact Or.inr ⟨s, hp.mem_iff.mp hs, h2⟩
    · rintro (h1 | ⟨s, hs, h2⟩)
      · exact Or.inl h1
      · exact Or.inr ⟨s, hp.mem_iff.mpr hs, h2⟩
  · rw [isSome_combo_inner_foldl, isSome_combo_inner_foldl]
    constructor
    · rintro (h1 | ⟨s, hs, h2⟩)
      · exact Or.inl h1
      · exact Or.inr ⟨s, hp.mem_iff.mp hs, h2⟩
    · rintro (h1 | ⟨s, hs, h2⟩)
      · exact Or.inl h1
      · exact Or.inr ⟨s, hp.mem_iff.mpr hs, h2⟩
  · rw [uPicksOf_foldl, uPicksOf_foldl, comboPicksIn_perm hp]
  · rw [uWinsOf_foldl, uWinsOf_foldl, comboWinsIn_perm hp]
  · rw [uSumOf_foldl, uSumOf_foldl, comboSumIn_perm hp]

/-- Witness for `aggregate_perm_invariant` at a concrete two-match swap. -/
theorem aggregate_perm_invariant_witness :
    ExtEq
      (aggregateCountsAndCombos
        [⟨some "15.4", [⟨some 1, [⟨"A", ["x"]⟩]⟩]⟩,
         ⟨some "15.4", [⟨some 5, [⟨"B", []⟩]⟩]⟩] "15.4")
      (aggregateCountsAndCombos
        [⟨some "15.4", [⟨some 5, [⟨"B", []⟩]⟩]⟩,
         ⟨some "15.4", [⟨some 1, [⟨"A", ["x"]⟩]⟩]⟩] "15.4") :=
  aggregate_perm_invariant _ _ "15.4" (List.Perm.swap _ _ _)



/-! ## C7: the `wins ≤ picks` invariant -/

/-- Every composition bucket records at most as many wins as picks. -/
def InvComp (m : CompBuckets) : Prop :=
  ∀ p ∈ m, p.2.wins ≤ p.2.picks

/-- Every unit-combo bucket records at most as many wins as picks. -/
def InvUC (uc : UnitComboBag) : Prop :=
  ∀ p ∈ uc, ∀ q ∈ p.2, q.2.wins ≤ q.2.picks

theorem winsInc_le_one (s : Slice) : winsInc s ≤ 1 := by
  unfold winsInc
  split <;> omega

theorem invComp_compStep {m : CompBuckets} (s : Slice) (h : InvComp m) :
    InvComp (compStep m s) := by
  rw [compStep_eq]
  intro p hp
  rcases mem_alSet hp with hp' | hp'
  · exact h p hp'
  · have h0 : ((alGet m (compKeyOf s)).getD (freshComp s (compKeyOf s))).wins ≤
        ((alGet m (compKeyOf s)).getD (freshComp s (compKeyOf s))).picks := by
      rcases h2 : alGet m (compKeyOf s) with _ | c
      · simp [freshComp]
      · simpa using h _ (alGet_mem h2)
    have h1 := winsInc_le_one s
    subst hp'
    dsimp only
    omega

/-- Inner combo bags: every entry records at most as many wins as picks. -/
def InvBag (b : List (String × ComboCounts)) : Prop :=
  ∀ q ∈ b, q.2.wins ≤ q.2.picks

theorem invBag_comboBump {b : List (String × ComboCounts)} (s : Slice) (ck : String)
    (h : InvBag b) : InvBag (comboBump s b ck) := by
  unfold comboBump
  intro q hq
  rcases mem_alSet hq with hq' | hq'
  · exact h q hq'
  · have h0 : ((alGet b ck).getD ⟨0, 0, 0⟩).wins ≤ ((alGet b ck).getD ⟨0, 0, 0⟩).picks := by
      rcases h2 : alGet b ck with _ | c
      · simp
      · simpa using h _ (alGet_mem h2)
    have h1 := winsInc_le_one s
    subst hq'
    dsimp only
    omega

theorem invBag_comboFold {b : List (String × ComboCounts)} (s : Slice)
    (combos : List String) (h : InvBag b) :
    InvBag (combos.foldl (comboBump s) b) := by
  induction combos generalizing b with
  | nil => exact h
  | cons c cs ih =>
    rw [List.foldl_cons]
    exact ih (invBag_comboBump s c h)

theorem invUC_comboStep {uc : UnitComboBag} (s : Slice) (h : InvUC uc) :
    InvUC (comboStep uc s) := by
  rw [comboStep_eq]
  generalize s.units = us
  induction us generalizing uc with
  | nil => exact h
  | cons u ut ih =>
    rw [List.foldl_cons]
    by_cases h3 : u.items.length < 3
    · rw [if_pos h3]
      exact ih h
    · rw [if_neg h3]
      by_cases h0 : (combosOf3 u.items).length = 0
      · rw [if_pos h0]
        exact ih h
      · rw [if_neg h0]
        refine ih ?_
        intro p hp
        rcases mem_alSet hp with hp' | hp'
        · exact h p hp'
        · subst hp'
          dsimp only
          refine invBag_comboFold s _ ?_
          rcases h2 : alGet uc u.character_id with _ | bag
          · intro q hq
            simp at hq
          · intro q hq
            exact h _ (alGet_mem h2) q hq

theorem invComp_merge {base add : CompBuckets} (hb : InvComp base) (ha : InvComp add) :
    InvComp (mergeCompBuckets base add) := by
  unfold mergeCompBuckets
  induction add generalizing base with
  | nil => exact hb
  | cons p rest ih =>
    rw [List.foldl_cons]
    have hp := ha p (List.mem_cons_self _ _)
    have hrest : InvComp rest := fun q hq => ha q (List.mem_cons_of_mem _ hq)
    refine ih ?_ hrest
    rcases h2 : alGet base p.1 with _ | cur
    · intro q hq
      rcases mem_alSet hq with hq' | hq'
      · exact hb q hq'
      · subst hq'
        exact hp
    · intro q hq
      rcases mem_alSet hq with hq' | hq'
      · exact hb q hq'
      · have hcur := hb _ (alGet_mem h2)
        subst hq'
        dsimp only
        simp only at hcur
        omega

theorem invBag_mergeFold {bag : List (String × ComboCounts)} (hbag : InvBag bag) :
    ∀ dest : List (String × ComboCounts), InvBag dest →
      InvBag (bag.foldl
        (fun d q =>
          match alGet d q.1 with
          | none => alSet d q.1 q.2
          | some cur =>
              alSet d q.1
                ⟨cur.picks + q.2.picks, cur.wins + q.2.wins,
                  cur.sumPlacement + q.2.sumPlacement⟩)
        dest) := by
  induction bag with
  | nil => exact fun dest hdest => hdest
  | cons q qs ih =>
    intro dest hdest
    rw [List.foldl_cons]
    have hq := hbag q (List.mem_cons_self _ _)
    have hqs : InvBag qs := fun w hw => hbag w (List.mem_cons_of_mem _ hw)
    refine ih hqs _ ?_
    dsimp only
    rcases h2 : alGet dest q.1 with _ | cur
    · intro w hw
      rcases mem_alSet hw with hw' | hw'
      · exact hdest w hw'
      · subst hw'
        exact hq
    · intro w hw
      rcases mem_alSet hw with hw' | hw'
      · exact hdest w hw'
      · have hcur := hdest _ (alGet_mem h2)
        subst hw'
        dsimp only
        simp only at hcur
        omega

theorem invUC_merge {base add : UnitComboBag} (hb : InvUC base) (ha : InvUC add) :
    InvUC (mergeUnitCombos base add) := by
  unfold mergeUnitCombos
  induction add generalizing base with
  | nil => exact hb
  | cons p rest ih =>
    rw [List.foldl_cons]
    have hp : InvBag p.2 := fun q hq => ha p (List.mem_cons_self _ _) q hq
    have hrest : InvUC rest := fun q hq => ha q (List.mem_cons_of_mem _ hq)
    refine ih ?_ hrest
    intro w hw
    rcases mem_alSet hw with hw' | hw'
    · exact hb w hw'
    · subst hw'
      dsimp only
      have hdest : InvBag ((alGet base p.1).getD []) := by
        rcases h2 : alGet base p.1 with _ | bag
        · intro q hq
          simp at hq
        · intro q hq
          exact hb _ (alGet_mem h2) q hq
      exact invBag_mergeFold hp _ hdest

/-- C7: every composition bucket and unit-combo bucket produced by
aggregation satisfies `wins ≤ picks` (all counts are naturals, hence
non-negative, by construction), and the merge — pure addition of `picks`,
`wins`, `sumPlacement` and leaf item counts — preserves the invariant. -/
theorem wins_le_picks_invariant :
    (∀ (ms : List MatchInfo) (patchFilter : String),
      InvComp (aggregateCountsAndCombos ms patchFilter).compBuckets ∧
      InvUC (aggregateCountsAndCombos ms patchFilter).unitCombos) ∧
    (∀ base add : CompBuckets, InvComp base → InvComp add →
      InvComp (mergeCompBuckets base add)) ∧
    (∀ base add : UnitComboBag, InvUC base → InvUC add →
      InvUC (mergeUnitCombos base add)) := by
  refine ⟨fun ms patchFilter => ?_, fun base add hb ha => invComp_merge hb ha,
    fun base add hb ha => invUC_merge hb ha⟩
  rw [aggregate_eq_foldl]
  generalize procSlices ms patchFilter = l
  have hstep : ∀ (st : AggState), InvComp st.compBuckets → InvUC st.unitCombos →
      InvComp (l.foldl aggStep st).compBuckets ∧ InvUC (l.foldl aggStep st).unitCombos := by
    induction l with
    | nil => exact fun st h1 h2 => ⟨h1, h2⟩
    | cons s t ih =>
      intro st h1 h2
      rw [List.foldl_cons]
      exact ih _ (invComp_compStep s h1) (invUC_comboStep s h2)
  refine hstep ⟨[], []⟩ ?_ ?_
  · intro p hp
    simp at hp
  · intro p hp
    simp at hp

/-- Witness for `wins_le_picks_invariant`: merge preservation at concrete
non-empty states. -/
theorem wins_le_picks_invariant_witness :
    InvComp
      (mergeCompBuckets
        [("15.4::A:", ⟨"15.4", "A:", 2, 1, 4, [], ["A"]⟩)]
        [("15.4::A:", ⟨"15.4", "A:", 3, 2, 5, [], ["A"]⟩)]) ∧
    InvUC
      (mergeUnitCombos [("A", [("x|y|z", ⟨2, 1, 3⟩)])]
        [("A", [("x|y|z", ⟨4, 2, 9⟩)])]) :=
  ⟨wins_le_picks_invariant.2.1 _ _
      (by unfold InvComp; decide) (by unfold InvComp; decide),
   wins_le_picks_invariant.2.2 _ _
      (by unfold InvUC; decide) (by unfold InvUC; decide)⟩



/-! ## C10: patch homogeneity under a non-empty filter -/

theorem procSlices_patch {ms : List MatchInfo} {patchFilter : String}
    (h : patchFilter ≠ "") :
    ∀ s ∈ procSlices ms patchFilter, s.patch = patchFilter := by
  intro s hs
  unfold procSlices at hs
  rcases List.mem_flatMap.mp hs with ⟨m, _, hsm⟩
  by_cases hp : patchFilter ≠ "" ∧ normalizePatch m.game_version ≠ patchFilter
  · rw [if_pos hp] at hsm
    simp at hsm
  · rw [if_neg hp] at hsm
    rcases List.mem_map.mp hsm with ⟨p, _, hps⟩
    have hpatch : normalizePatch m.game_version = patchFilter := by
      by_contra hc
      exact hp ⟨h, hc⟩
    rw [← hps, ← hpatch]

/-- The per-bucket patch/key invariant maintained by the comp fold. -/
def PatchInv (patchFilter : String) (m : CompBuckets) : Prop :=
  ∀ k c, alGet m k = some c →
    c.patch = patchFilter ∧ ∃ sig, k = patchFilter ++ "::" ++ sig

theorem patchInv_compStep {m : CompBuckets} {patchFilter : String} {s : Slice}
    (hs : s.patch = patchFilter) (h : PatchInv patchFilter m) :
    PatchInv patchFilter (compStep m s) := by
  rw [compStep_eq]
  intro k c hk
  rw [alGet_alSet] at hk
  by_cases h2 : compKeyOf s = k
  · rw [if_pos h2] at hk
    cases hk
    constructor
    · rcases h3 : alGet m (compKeyOf s) with _ | c'
      · simp [h3, freshComp, hs]
      · simp only [h3, Option.getD_some]
        exact (h _ _ h3).1
    · refine ⟨compSignature s.units, ?_⟩
      rw [← h2]
      unfold compKeyOf
      rw [hs]
  · rw [if_neg h2] at hk
    exact h k c hk

theorem patchInv_foldl {patchFilter : String} (l : List Slice)
    (hl : ∀ s ∈ l, s.patch = patchFilter) (st : AggState)
    (h : PatchInv patchFilter st.compBuckets) :
    PatchInv patchFilter (l.foldl aggStep st).compBuckets := by
  induction l generalizing st with
  | nil => exact h
  | cons s t ih =>
    rw [List.foldl_cons]
    exact ih (fun w hw => hl w (List.mem_cons_of_mem _ hw)) _
      (patchInv_compStep (hl s (List.mem_cons_self _ _)) h)

/-- C10: with a non-empty `patchFilter`, every composition bucket produced
by `aggregateCountsAndCombos` carries `patch = patchFilter` and its map key
is `patchFilter ++ "::" ++ signature`; and a match whose normalized
`game_version` differs from `patchFilter` (including raw/unparseable
version strings, which `normalizePatch` returns unchanged) contributes
nothing: removing it leaves both maps literally unchanged. -/
theorem aggregate_patch_homogeneous (patchFilter : String) (h : patchFilter ≠ "") :
    (∀ (ms : List MatchInfo) (k : String) (c : CompCounts),
      alGet (aggregateCountsAndCombos ms patchFilter).compBuckets k = some c →
        c.patch = patchFilter ∧ ∃ sig, k = patchFilter ++ "::" ++ sig) ∧
    (∀ (ms₁ ms₂ : List MatchInfo) (m : MatchInfo),
      normalizePatch m.game_version ≠ patchFilter →
      aggregateCountsAndCombos (ms₁ ++ m :: ms₂) patchFilter =
        aggregateCountsAndCombos (ms₁ ++ ms₂) patchFilter) := by
  constructor
  · intro ms k c hk
    refine patchInv_foldl (procSlices ms patchFilter) (procSlices_patch h) ⟨[], []⟩
      ?_ k c hk
    intro k' c' hk'
    simp [alGet] at hk'
  · intro ms₁ ms₂ m hm
    unfold aggregateCountsAndCombos
    have hslices : procSlices (ms₁ ++ m :: ms₂) patchFilter =
        procSlices (ms₁ ++ ms₂) patchFilter := by
      unfold procSlices
      rw [List.flatMap_append, List.flatMap_append, List.flatMap_cons]
      have hskip : (if patchFilter ≠ "" ∧ normalizePatch m.game_version ≠ patchFilter
          then ([] : List Slice)
          else m.participants.map fun p =>
            { patch := normalizePatch m.game_version, placement := p.placement,
              units := p.units }) = [] := if_pos ⟨h, hm⟩
      rw [hskip, List.nil_append]
    rw [hslices]

/-- Witness for `aggregate_patch_homogeneous`: a match with an unparseable
version string contributes nothing when filtering for patch `15.4`. -/
theorem aggregate_patch_homogeneous_witness :
    aggregateCountsAndCombos
        [⟨some "bad version", [⟨some 1, [⟨"A", []⟩]⟩]⟩] "15.4" =
      aggregateCountsAndCombos [] "15.4" :=
  (aggregate_patch_homogeneous "15.4" (by decide)).2 [] []
    ⟨some "bad version", [⟨some 1, [⟨"A", []⟩]⟩]⟩ (by decide)



/-! ## C8: inclusive threshold filtering -/

/-- C8: in both finalizers the threshold stage keeps a bucket iff its
`picks` is at least the configured minimum (the guard is `picks < min →
skip`), so a bucket with `picks = min` is retained and one with
`picks = min - 1` is dropped.  Ranking truncation happens afterwards and is
a separate concern. -/
theorem threshold_inclusive :
    (∀ (m : CompBuckets) (minPicks : Nat) (p : String × CompCounts),
      p ∈ compThreshold m minPicks ↔ p ∈ m ∧ minPicks ≤ p.2.picks) ∧
    (∀ (bag : List (String × ComboCounts)) (minPicks : Nat) (q : String × ComboCounts),
      q ∈ comboThreshold bag minPicks ↔ q ∈ bag ∧ minPicks ≤ q.2.picks) := by
  constructor
  · intro m minPicks p
    simp [compThreshold, List.mem_filter, Nat.not_lt]
  · intro bag minPicks q
    simp [comboThreshold, List.mem_filter, Nat.not_lt]

/-! ## C9: ranking order and truncation -/

/-- C9: finalized composition rows are pairwise ordered by `avg_placement`
ascending with ties broken by `picks` descending, and at most 20 survive;
finalized unit-combo rows are ordered per unit by the same rule, truncated
to `topN` per unit, units with no surviving combo are omitted, and every
emitted row's unit is a key of the input map. -/
theorem finalize_sorted_truncated :
    (∀ (m : CompBuckets) (minPicks : Nat),
      (finalizeComps m minPicks).Pairwise rowLE ∧
        (finalizeComps m minPicks).length ≤ 20) ∧
    (∀ (uc : UnitComboBag) (minPicks topN : Nat),
      ∀ r ∈ finalizeUnitCombos uc minPicks topN,
        r.combos.Pairwise comboRowLE ∧ r.combos.length ≤ topN ∧ r.combos ≠ [] ∧
          r.unit ∈ uc.map Prod.fst) := by
  constructor
  · intro m minPicks
    constructor
    · refine List.Pairwise.sublist (List.take_sublist _ _) ?_
      exact List.sorted_insertionSort rowLE _
    · rw [finalizeComps, List.length_take]
      exact min_le_left _ _
  · intro uc minPicks topN r hr
    unfold finalizeUnitCombos at hr
    rcases List.mem_filter.mp hr with ⟨hmem, hcond⟩
    rcases List.mem_map.mp hmem with ⟨p, hp, hrp⟩
    have hne : r.combos ≠ [] := by
      intro hc
      rw [hc] at hcond
      simp at hcond
    refine ⟨?_, ?_, hne, ?_⟩
    · rw [← hrp]
      refine List.Pairwise.sublist (List.take_sublist _ _) ?_
      exact List.sorted_insertionSort comboRowLE _
    · rw [← hrp]
      simp only [List.length_take]
      exact min_le_left _ _
    · rw [← hrp]
      exact List.mem_map.mpr ⟨p, hp, rfl⟩



/-! ## C5: well-formedness (unique keys at every level) -/

/-- Composition-bucket maps with unique keys at every nesting level. -/
def CompWF (m : CompBuckets) : Prop :=
  NodupKeysL m ∧ ∀ p ∈ m, NodupKeysL p.2.units ∧ ∀ q ∈ p.2.units, NodupKeysL q.2

/-- Unit-combo maps with unique keys at both levels. -/
def UCWF (uc : UnitComboBag) : Prop :=
  NodupKeysL uc ∧ ∀ p ∈ uc, NodupKeysL p.2

/-- An aggregation state whose maps all have unique keys. -/
def StateWF (st : AggState) : Prop :=
  CompWF st.compBuckets ∧ UCWF st.unitCombos

theorem nodupKeysL_nil {α : Type} : NodupKeysL ([] : List (String × α)) :=
  List.nodup_nil

theorem nodupKeysL_bumpItems {b : ItemCount} (items : List String) (h : NodupKeysL b) :
    NodupKeysL (bumpItems b items) := by
  induction items generalizing b with
  | nil => exact h
  | cons i is ih =>
    rw [bumpItems, List.foldl_cons]
    exact ih (nodupKeysL_alSet _ _ h)

/-- Unit bags with unique keys at both levels. -/
def UBWF (ub : UnitBag) : Prop :=
  NodupKeysL ub ∧ ∀ q ∈ ub, NodupKeysL q.2

theorem ubwf_unitsFold {ub : UnitBag} (us : List Unit) (h : UBWF ub) :
    UBWF (unitsFold ub us) := by
  induction us generalizing ub with
  | nil => exact h
  | cons u ut ih =>
    rw [unitsFold, List.foldl_cons]
    refine ih ⟨nodupKeysL_alSet _ _ h.1, ?_⟩
    intro q hq
    rcases mem_alSet hq with hq' | hq'
    · exact h.2 q hq'
    · subst hq'
      dsimp only
      refine nodupKeysL_bumpItems _ ?_
      rcases h2 : alGet ub u.character_id with _ | bag
      · exact nodupKeysL_nil
      · exact h.2 _ (alGet_mem h2)

theorem compWF_compStep {m : CompBuckets} (s : Slice) (h : CompWF m) :
    CompWF (compStep m s) := by
  rw [compStep_eq]
  refine ⟨nodupKeysL_alSet _ _ h.1, ?_⟩
  intro p hp
  rcases mem_alSet hp with hp' | hp'
  · exact h.2 p hp'
  · subst hp'
    dsimp only
    have hb : UBWF ((alGet m (compKeyOf s)).getD (freshComp s (compKeyOf s))).units := by
      rcases h2 : alGet m (compKeyOf s) with _ | c
      · exact ⟨nodupKeysL_nil, fun q hq => by simp [freshComp] at hq⟩
      · exact ⟨(h.2 _ (alGet_mem h2)).1, (h.2 _ (alGet_mem h2)).2⟩
    exact ⟨(ubwf_unitsFold s.units hb).1, (ubwf_unitsFold s.units hb).2⟩

theorem nodupKeysL_comboFold {bag : List (String × ComboCounts)} (s : Slice)
    (combos : List String) (h : NodupKeysL bag) :
    NodupKeysL (combos.foldl (comboBump s) bag) := by
  induction combos generalizing bag with
  | nil => exact h
  | cons c cs ih =>
    rw [List.foldl_cons]
    exact ih (nodupKeysL_alSet _ _ h)

theorem ucwf_comboStep {uc : UnitComboBag} (s : Slice) (h : UCWF uc) :
    UCWF (comboStep uc s) := by
  rw [comboStep_eq]
  generalize s.units = us
  induction us generalizing uc with
  | nil => exact h
  | cons u ut ih =>
    rw [List.foldl_cons]
    by_cases h3 : u.items.length < 3
    · rw [if_pos h3]
      exact ih h
    · rw [if_neg h3]
      by_cases h0 : (combosOf3 u.items).length = 0
      · rw [if_pos h0]
        exact ih h
      · rw [if_neg h0]
        refine ih ⟨nodupKeysL_alSet _ _ h.1, ?_⟩
        intro p hp
        rcases mem_alSet hp with hp' | hp'
        · exact h.2 p hp'
        · subst hp'
          dsimp only
          refine nodupKeysL_comboFold s _ ?_
          rcases h2 : alGet uc u.character_id with _ | bag
          · exact nodupKeysL_nil
          · exact h.2 _ (alGet_mem h2)

theorem stateWF_aggregate (ms : List MatchInfo) (patchFilter : String) :
    StateWF (aggregateCountsAndCombos ms patchFilter) := by
  rw [aggregate_eq_foldl]
  generalize procSlices ms patchFilter = l
  have hstep : ∀ (st : AggState), StateWF st → StateWF (l.foldl aggStep st) := by
    induction l with
    | nil => exact fun st h => h
    | cons s t ih =>
      intro st h
      rw [List.foldl_cons]
      exact ih _ ⟨compWF_compStep s h.1, ucwf_comboStep s h.2⟩
  refine hstep ⟨[], []⟩ ⟨⟨nodupKeysL_nil, fun p hp => by simp at hp⟩,
    nodupKeysL_nil, fun p hp => by simp at hp⟩

theorem nodupKeysL_addBFold {bag0 : ItemCount} (src : ItemCount) (h : NodupKeysL bag0) :
    NodupKeysL (src.foldl (fun bag q => alSet bag q.1 ((alGet bag q.1).getD 0 + q.2)) bag0) := by
  induction src generalizing bag0 with
  | nil => exact h
  | cons q qs ih =>
    rw [List.foldl_cons]
    exact ih (nodupKeysL_alSet _ _ h)

theorem ubwf_mergeUnits {dest : UnitBag} (src : UnitBag) (h : UBWF dest) :
    UBWF (mergeUnits dest src) := by
  unfold mergeUnits
  induction src generalizing dest with
  | nil => exact h
  | cons p rest ih =>
    rw [List.foldl_cons]
    refine ih ⟨nodupKeysL_alSet _ _ h.1, ?_⟩
    intro q hq
    rcases mem_alSet hq with hq' | hq'
    · exact h.2 q hq'
    · subst hq'
      dsimp only
      refine nodupKeysL_addBFold _ ?_
      rcases h2 : alGet dest p.1 with _ | bag
      · exact nodupKeysL_nil
      · exact h.2 _ (alGet_mem h2)

theorem compWF_merge {base add : CompBuckets} (hb : CompWF base) (ha : CompWF add) :
    CompWF (mergeCompBuckets base add) := by
  unfold mergeCompBuckets
  induction add generalizing base with
  | nil => exact hb
  | cons p rest ih =>
    rw [List.foldl_cons]
    have hrest : CompWF rest :=
      ⟨(List.nodup_cons.mp ha.1).2, fun q hq => ha.2 q (List.mem_cons_of_mem _ hq)⟩
    rcases h2 : alGet base p.1 with _ | cur
    · refine ih ⟨nodupKeysL_alSet _ _ hb.1, ?_⟩ hrest
      intro q hq
      rcases mem_alSet hq with hq' | hq'
      · exact hb.2 q hq'
      · subst hq'
        exact ha.2 p (List.mem_cons_self _ _)
    · refine ih ⟨nodupKeysL_alSet _ _ hb.1, ?_⟩ hrest
      intro q hq
      rcases mem_alSet hq with hq' | hq'
      · exact hb.2 q hq'
      · subst hq'
        dsimp only
        have hcur := hb.2 _ (alGet_mem h2)
        exact ⟨(ubwf_mergeUnits p.2.units ⟨hcur.1, hcur.2⟩).1,
          (ubwf_mergeUnits p.2.units ⟨hcur.1, hcur.2⟩).2⟩

theorem nodupKeysL_mergeInnerFold {dest : List (String × ComboCounts)}
    (bag : List (String × ComboCounts)) (h : NodupKeysL dest) :
    NodupKeysL (bag.foldl
      (fun d q =>
        match alGet d q.1 with
        | none => alSet d q.1 q.2
        | some cur =>
            alSet d q.1
              ⟨cur.picks + q.2.picks, cur.wins + q.2.wins,
                cur.sumPlacement + q.2.sumPlacement⟩)
      dest) := by
  induction bag generalizing dest with
  | nil => exact h
  | cons q qs ih =>
    rw [List.foldl_cons]
    rcases h2 : alGet dest q.1 with _ | cur
    · exact ih (nodupKeysL_alSet _ _ h)
    · exact ih (nodupKeysL_alSet _ _ h)

theorem ucwf_merge {base add : UnitComboBag} (hb : UCWF base) :
    UCWF (mergeUnitCombos base add) := by
  unfold mergeUnitCombos
  induction add generalizing base with
  | nil => exact hb
  | cons p rest ih =>
    rw [List.foldl_cons]
    refine ih ⟨nodupKeysL_alSet _ _ hb.1, ?_⟩
    intro q hq
    rcases mem_alSet hq with hq' | hq'
    · exact hb.2 q hq'
    · subst hq'
      dsimp only
      refine nodupKeysL_mergeInnerFold _ ?_
      rcases h2 : alGet base p.1 with _ | bag
      · exact nodupKeysL_nil
      · exact hb.2 _ (alGet_mem h2)



/-! ## C5: extensional characterization of the merges -/

theorem cPicksOf_cons_of_nodup {p : String × CompCounts} {rest : CompBuckets}
    (h : NodupKeysL (p :: rest)) (k : String) :
    cPicksOf (p :: rest) k = (if p.1 = k then p.2.picks else 0) + cPicksOf rest k := by
  unfold cPicksOf
  rw [alGet_cons]
  by_cases h3 : p.1 = k
  · subst h3
    rw [if_pos rfl, if_pos rfl]
    have h4 : alGet rest p.1 = none :=
      alGet_eq_none_iff.mpr (List.nodup_cons.mp h).1
    simp [h4]
  · rw [if_neg h3, if_neg h3]
    omega

theorem mergeCompBuckets_cPicksOf {add : CompBuckets} (ha : NodupKeysL add) :
    ∀ (base : CompBuckets) (k : String),
      cPicksOf (mergeCompBuckets base add) k = cPicksOf base k + cPicksOf add k := by
  unfold mergeCompBuckets
  induction add with
  | nil =>
    intro base k
    simp [cPicksOf, alGet]
  | cons p rest ih =>
    intro base k
    have harest : NodupKeysL rest := (List.nodup_cons.mp ha).2
    rw [List.foldl_cons, cPicksOf_cons_of_nodup ha]
    rcases h2 : alGet base p.1 with _ | cur
    · rw [ih harest, cPicksOf_alSet]
      by_cases h3 : p.1 = k
      · subst h3
        rw [if_pos rfl, if_pos rfl]
        have h4 : cPicksOf base p.1 = 0 := by simp [cPicksOf, h2]
        omega
      · rw [if_neg h3, if_neg h3]
        omega
    · rw [ih harest, cPicksOf_alSet]
      by_cases h3 : p.1 = k
      · subst h3
        rw [if_pos rfl, if_pos rfl]
        have h4 : cPicksOf base p.1 = cur.picks := by simp [cPicksOf, h2]
        dsimp only
        omega
      · rw [if_neg h3, if_neg h3]
        omega

theorem cWinsOf_cons_of_nodup {p : String × CompCounts} {rest : CompBuckets}
    (h : NodupKeysL (p :: rest)) (k : String) :
    cWinsOf (p :: rest) k = (if p.1 = k then p.2.wins else 0) + cWinsOf rest k := by
  unfold cWinsOf
  rw [alGet_cons]
  by_cases h3 : p.1 = k
  · subst h3
    rw [if_pos rfl, if_pos rfl]
    have h4 : alGet rest p.1 = none :=
      alGet_eq_none_iff.mpr (List.nodup_cons.mp h).1
    simp [h4]
  · rw [if_neg h3, if_neg h3]
    omega

theorem mergeCompBuckets_cWinsOf {add : CompBuckets} (ha : NodupKeysL add) :
    ∀ (base : CompBuckets) (k : String),
      cWinsOf (mergeCompBuckets base add) k = cWinsOf base k + cWinsOf add k := by
  unfold mergeCompBuckets
  induction add with
  | nil =>
    intro base k
    simp [cWinsOf, alGet]
  | cons p rest ih =>
    intro base k
    have harest : NodupKeysL rest := (List.nodup_cons.mp ha).2
    rw [List.foldl_cons, cWinsOf_cons_of_nodup ha]
    rcases h2 : alGet base p.1 with _ | cur
    · rw [ih harest, cWinsOf_alSet]
      by_cases h3 : p.1 = k
      · subst h3
        rw [if_pos rfl, if_pos rfl]
        have h4 : cWinsOf base p.1 = 0 := by simp [cWinsOf, h2]
        omega
      · rw [if_neg h3, if_neg h3]
        omega
    · rw [ih harest, cWinsOf_alSet]
      by_cases h3 : p.1 = k
      · subst h3
        rw [if_pos rfl, if_pos rfl]
        have h4 : cWinsOf base p.1 = cur.wins := by simp [cWinsOf, h2]
        dsimp only
        omega
      · rw [if_neg h3, if_neg h3]
        omega

theorem cSumOf_cons_of_nodup {p : String × CompCounts} {rest : CompBuckets}
    (h : NodupKeysL (p :: rest)) (k : String) :
    cSumOf (p :: rest) k = (if p.1 = k then p.2.sumPlacement else 0) + cSumOf rest k := by
  unfold cSumOf
  rw [alGet_cons]
  by_cases h3 : p.1 = k
  · subst h3
    rw [if_pos rfl, if_pos rfl]
    have h4 : alGet rest p.1 = none :=
      alGet_eq_none_iff.mpr (List.nodup_cons.mp h).1
    simp [h4]
  · rw [if_neg h3, if_neg h3]
    omega

theorem mergeCompBuckets_cSumOf {add : CompBuckets} (ha : NodupKeysL add) :
    ∀ (base : CompBuckets) (k : String),
      cSumOf (mergeCompBuckets base add) k = cSumOf base k + cSumOf add k := by
  unfold mergeCompBuckets
  induction add with
  | nil =>
    intro base k
    simp [cSumOf, alGet]
  | cons p rest ih =>
    intro base k
    have harest : NodupKeysL rest := (List.nodup_cons.mp ha).2
    rw [List.foldl_cons, cSumOf_cons_of_nodup ha]
    rcases h2 : alGet base p.1 with _ | cur
    · rw [ih harest, cSumOf_alSet]
      by_cases h3 : p.1 = k
      · subst h3
        rw [if_pos rfl, if_pos rfl]
        have h4 : cSumOf base p.1 = 0 := by simp [cSumOf, h2]
        omega
      · rw [if_neg h3, if_neg h3]
        omega
    · rw [ih harest, cSumOf_alSet]
      by_cases h3 : p.1 = k
      · subst h3
        rw [if_pos rfl, if_pos rfl]
        have h4 : cSumOf base p.1 = cur.sumPlacement := by simp [cSumOf, h2]
        dsimp only
        omega
      · rw [if_neg h3, if_neg h3]
        omega

theorem isSome_mergeCompBuckets (base add : CompBuckets) (k : String) :
    (alGet (mergeCompBuckets base add) k).isSome = true ↔
      (alGet base k).isSome = true ∨ (alGet add k).isSome = true := by
  unfold mergeCompBuckets
  induction add generalizing base with
  | nil => simp [alGet]
  | cons p rest ih =>
    rw [List.foldl_cons, alGet_cons]
    rcases h2 : alGet base p.1 with _ | cur
    · rw [ih]
      rw [alGet_alSet]
      by_cases h3 : p.1 = k
      · subst h3
        simp
      · rw [if_neg h3]
        simp [h3]
    · rw [ih]
      rw [alGet_alSet]
      by_cases h3 : p.1 = k
      · subst h3
        simp [h2]
      · rw [if_neg h3]
        simp [h3]



theorem gItem_cons_of_nodup {q : String × Nat} {rest : ItemCount}
    (h : NodupKeysL (q :: rest)) (it : String) :
    gItem (q :: rest) it = (if q.1 = it then q.2 else 0) + gItem rest it := by
  unfold gItem
  rw [alGet_cons]
  by_cases h3 : q.1 = it
  · subst h3
    rw [if_pos rfl, if_pos rfl]
    have h4 : alGet rest q.1 = none :=
      alGet_eq_none_iff.mpr (List.nodup_cons.mp h).1
    simp [h4]
  · rw [if_neg h3, if_neg h3]
    omega

theorem gItem_addBFold {src : ItemCount} (hs : NodupKeysL src) :
    ∀ (bag0 : ItemCount) (it : String),
      gItem (src.foldl (fun bag q => alSet bag q.1 ((alGet bag q.1).getD 0 + q.2)) bag0) it =
        gItem bag0 it + gItem src it := by
  induction src with
  | nil =>
    intro bag0 it
    simp [gItem, alGet]
  | cons q qs ih =>
    intro bag0 it
    have hqs : NodupKeysL qs := (List.nodup_cons.mp hs).2
    rw [List.foldl_cons, gItem_cons_of_nodup hs, ih hqs]
    have hstep : gItem (alSet bag0 q.1 ((alGet bag0 q.1).getD 0 + q.2)) it =
        gItem bag0 it + (if q.1 = it then q.2 else 0) := by
      unfold gItem
      rw [alGet_alSet]
      by_cases h3 : q.1 = it
      · subst h3
        rw [if_pos rfl, if_pos rfl]
        rcases h2 : alGet bag0 q.1 with _ | n <;> simp [h2]
      · rw [if_neg h3, if_neg h3]
        omega
    rw [hstep]
    omega

theorem bagItemCnt_cons_of_nodup {p : String × ItemCount} {rest : UnitBag}
    (h : NodupKeysL (p :: rest)) (cid item : String) :
    bagItemCnt (p :: rest) cid item =
      (if p.1 = cid then gItem p.2 item else 0) + bagItemCnt rest cid item := by
  unfold bagItemCnt
  rw [alGet_cons]
  by_cases h3 : p.1 = cid
  · subst h3
    rw [if_pos rfl, if_pos rfl]
    have h4 : alGet rest p.1 = none :=
      alGet_eq_none_iff.mpr (List.nodup_cons.mp h).1
    simp [h4, gItem, alGet]
  · rw [if_neg h3, if_neg h3]
    omega

theorem bagItemCnt_mergeUnits {src : UnitBag}
    (hs : NodupKeysL src ∧ ∀ q ∈ src, NodupKeysL q.2) :
    ∀ (dest : UnitBag) (cid item : String),
      bagItemCnt (mergeUnits dest src) cid item =
        bagItemCnt dest cid item + bagItemCnt src cid item := by
  unfold mergeUnits
  induction src with
  | nil =>
    intro dest cid item
    simp [bagItemCnt, gItem, alGet]
  | cons p rest ih =>
    intro dest cid item
    have hrest : NodupKeysL rest ∧ ∀ q ∈ rest, NodupKeysL q.2 :=
      ⟨(List.nodup_cons.mp hs.1).2, fun q hq => hs.2 q (List.mem_cons_of_mem _ hq)⟩
    have hpbag : NodupKeysL p.2 := hs.2 p (List.mem_cons_self _ _)
    rw [List.foldl_cons, bagItemCnt_cons_of_nodup hs.1, ih hrest]
    have hstep :
        bagItemCnt
          (alSet dest p.1
            (p.2.foldl (fun bag q => alSet bag q.1 ((alGet bag q.1).getD 0 + q.2))
              ((alGet dest p.1).getD []))) cid item =
          bagItemCnt dest cid item + (if p.1 = cid then gItem p.2 item else 0) := by
      rw [bagItemCnt_alSet]
      by_cases h3 : p.1 = cid
      · subst h3
        rw [if_pos rfl, if_pos rfl, gItem_addBFold hpbag]
        have h4 : gItem ((alGet dest p.1).getD []) item = bagItemCnt dest p.1 item := rfl
        omega
      · rw [if_neg h3, if_neg h3]
        omega
    rw [hstep]
    omega

theorem cItemOf_cons_of_nodup {p : String × CompCounts} {rest : CompBuckets}
    (h : NodupKeysL (p :: rest)) (k cid item : String) :
    cItemOf (p :: rest) k cid item =
      (if p.1 = k then bagItemCnt p.2.units cid item else 0) + cItemOf rest k cid item := by
  unfold cItemOf
  rw [alGet_cons]
  by_cases h3 : p.1 = k
  · subst h3
    rw [if_pos rfl, if_pos rfl]
    have h4 : alGet rest p.1 = none :=
      alGet_eq_none_iff.mpr (List.nodup_cons.mp h).1
    simp [h4]
  · rw [if_neg h3, if_neg h3]
    omega

theorem mergeCompBuckets_cItemOf {add : CompBuckets} (ha : CompWF add) :
    ∀ (base : CompBuckets) (k cid item : String),
      cItemOf (mergeCompBuckets base add) k cid item =
        cItemOf base k cid item + cItemOf add k cid item := by
  unfold mergeCompBuckets
  induction add with
  | nil =>
    intro base k cid item
    simp [cItemOf, alGet]
  | cons p rest ih =>
    intro base k cid item
    have harest : CompWF rest :=
      ⟨(List.nodup_cons.mp ha.1).2, fun q hq => ha.2 q (List.mem_cons_of_mem _ hq)⟩
    have hpunits := ha.2 p (List.mem_cons_self _ _)
    rw [List.foldl_cons, cItemOf_cons_of_nodup ha.1]
    rcases h2 : alGet base p.1 with _ | cur
    · rw [ih harest, cItemOf_alSet]
      by_cases h3 : p.1 = k
      · subst h3
        rw [if_pos rfl, if_pos rfl]
        have h4 : cItemOf base p.1 cid item = 0 := by simp [cItemOf, h2]
        omega
      · rw [if_neg h3, if_neg h3]
        omega
    · rw [ih harest, cItemOf_alSet]
      by_cases h3 : p.1 = k
      · subst h3
        rw [if_pos rfl, if_pos rfl]
        dsimp only
        rw [bagItemCnt_mergeUnits ⟨hpunits.1, hpunits.2⟩]
        have h4 : cItemOf base p.1 cid item = bagItemCnt cur.units cid item := by
          simp [cItemOf, h2]
        omega
      · rw [if_neg h3, if_neg h3]
        omega



theorem iPicks_cons_of_nodup {q : String × ComboCounts} {rest : List (String × ComboCounts)}
    (h : NodupKeysL (q :: rest)) (ck : String) :
    iPicks (q :: rest) ck = (if q.1 = ck then q.2.picks else 0) + iPicks rest ck := by
  unfold iPicks
  rw [alGet_cons]
  by_cases h3 : q.1 = ck
  · subst h3
    rw [if_pos rfl, if_pos rfl]
    have h4 : alGet rest q.1 = none :=
      alGet_eq_none_iff.mpr (List.nodup_cons.mp h).1
    simp [h4]
  · rw [if_neg h3, if_neg h3]
    omega

theorem iWins_cons_of_nodup {q : String × ComboCounts} {rest : List (String × ComboCounts)}
    (h : NodupKeysL (q :: rest)) (ck : String) :
    iWins (q :: rest) ck = (if q.1 = ck then q.2.wins else 0) + iWins rest ck := by
  unfold iWins
  rw [alGet_cons]
  by_cases h3 : q.1 = ck
  · subst h3
    rw [if_pos rfl, if_pos rfl]
    have h4 : alGet rest q.1 = none :=
      alGet_eq_none_iff.mpr (List.nodup_cons.mp h).1
    simp [h4]
  · rw [if_neg h3, if_neg h3]
    omega

theorem iSum_cons_of_nodup {q : String × ComboCounts} {rest : List (String × ComboCounts)}
    (h : NodupKeysL (q :: rest)) (ck : String) :
    iSum (q :: rest) ck = (if q.1 = ck then q.2.sumPlacement else 0) + iSum rest ck := by
  unfold iSum
  rw [alGet_cons]
  by_cases h3 : q.1 = ck
  · subst h3
    rw [if_pos rfl, if_pos rfl]
    have h4 : alGet rest q.1 = none :=
      alGet_eq_none_iff.mpr (List.nodup_cons.mp h).1
    simp [h4]
  · rw [if_neg h3, if_neg h3]
    omega

theorem iPicks_mergeInnerFold {bag : List (String × ComboCounts)} (hbag : NodupKeysL bag) :
    ∀ (dest : List (String × ComboCounts)) (ck : String),
      iPicks (bag.foldl
        (fun d q =>
          match alGet d q.1 with
          | none => alSet d q.1 q.2
          | some cur =>
              alSet d q.1
                ⟨cur.picks + q.2.picks, cur.wins + q.2.wins,
                  cur.sumPlacement + q.2.sumPlacement⟩)
        dest) ck = iPicks dest ck + iPicks bag ck := by
  induction bag with
  | nil =>
    intro dest ck
    simp [iPicks, alGet]
  | cons q qs ih =>
    intro dest ck
    have hqs : NodupKeysL qs := (List.nodup_cons.mp hbag).2
    rw [List.foldl_cons, iPicks_cons_of_nodup hbag]
    rcases h2 : alGet dest q.1 with _ | cur
    · rw [ih hqs]
      have hstep : iPicks (alSet dest q.1 q.2) ck =
          iPicks dest ck + (if q.1 = ck then q.2.picks else 0) := by
        unfold iPicks
        rw [alGet_alSet]
        by_cases h3 : q.1 = ck
        · subst h3
          rw [if_pos rfl, if_pos rfl]
          simp [h2]
        · rw [if_neg h3, if_neg h3]
          omega
      rw [hstep]
      omega
    · rw [ih hqs]
      have hstep : iPicks (alSet dest q.1
          ⟨cur.picks + q.2.picks, cur.wins + q.2.wins,
            cur.sumPlacement + q.2.sumPlacement⟩) ck =
          iPicks dest ck + (if q.1 = ck then q.2.picks else 0) := by
        unfold iPicks
        rw [alGet_alSet]
        by_cases h3 : q.1 = ck
        · subst h3
          rw [if_pos rfl, if_pos rfl]
          simp [h2]
        · rw [if_neg h3, if_neg h3]
          omega
      rw [hstep]
      omega

theorem iWins_mergeInnerFold {bag : List (String × ComboCounts)} (hbag : NodupKeysL bag) :
    ∀ (dest : List (String × ComboCounts)) (ck : String),
      iWins (bag.foldl
        (fun d q =>
          match alGet d q.1 with
          | none => alSet d q.1 q.2
          | some cur =>
              alSet d q.1
                ⟨cur.picks + q.2.picks, cur.wins + q.2.wins,
                  cur.sumPlacement + q.2.sumPlacement⟩)
        dest) ck = iWins dest ck + iWins bag ck := by
  induction bag with
  | nil =>
    intro dest ck
    simp [iWins, alGet]
  | cons q qs ih =>
    intro dest ck
    have hqs : NodupKeysL qs := (List.nodup_cons.mp hbag).2
    rw [List.foldl_cons, iWins_cons_of_nodup hbag]
    rcases h2 : alGet dest q.1 with _ | cur
    · rw [ih hqs]
      have hstep : iWins (alSet dest q.1 q.2) ck =
          iWins dest ck + (if q.1 = ck then q.2.wins else 0) := by
        unfold iWins
        rw [alGet_alSet]
        by_cases h3 : q.1 = ck
        · subst h3
          rw [if_pos rfl, if_pos rfl]
          simp [h2]
        · rw [if_neg h3, if_neg h3]
          omega
      rw [hstep]
      omega
    · rw [ih hqs]
      have hstep : iWins (alSet dest q.1
          ⟨cur.picks + q.2.picks, cur.wins + q.2.wins,
            cur.sumPlacement + q.2.sumPlacement⟩) ck =
          iWins dest ck + (if q.1 = ck then q.2.wins else 0) := by
        unfold iWins
        rw [alGet_alSet]
        by_cases h3 : q.1 = ck
        · subst h3
          rw [if_pos rfl, if_pos rfl]
          simp [h2]
        · rw [if_neg h3, if_neg h3]
          omega
      rw [hstep]
      omega

theorem iSum_mergeInnerFold {bag : List (String × ComboCounts)} (hbag : NodupKeysL bag) :
    ∀ (dest : List (String × ComboCounts)) (ck : String),
      iSum (bag.foldl
        (fun d q =>
          match alGet d q.1 with
          | none => alSet d q.1 q.2
          | some cur =>
              alSet d q.1
                ⟨cur.picks + q.2.picks, cur.wins + q.2.wins,
                  cur.sumPlacement + q.2.sumPlacement⟩)
        dest) ck = iSum dest ck + iSum bag ck := by
  induction bag with
  | nil =>
    intro dest ck
    simp [iSum, alGet]
  | cons q qs ih =>
    intro dest ck
    have hqs : NodupKeysL qs := (List.nodup_cons.mp hbag).2
    rw [List.foldl_cons, iSum_cons_of_nodup hbag]
    rcases h2 : alGet dest q.1 with _ | cur
    · rw [ih hqs]
      have hstep : iSum (alSet dest q.1 q.2) ck =
          iSum dest ck + (if q.1 = ck then q.2.sumPlacement else 0) := by
        unfold iSum
        rw [alGet_alSet]
        by_cases h3 : q.1 = ck
        · subst h3
          rw [if_pos rfl, if_pos rfl]
          simp [h2]
        · rw [if_neg h3, if_neg h3]
          omega
      rw [hstep]
      omega
    · rw [ih hqs]
      have hstep : iSum (alSet dest q.1
          ⟨cur.picks + q.2.picks, cur.wins + q.2.wins,
            cur.sumPlacement + q.2.sumPlacement⟩) ck =
          iSum dest ck + (if q.1 = ck then q.2.sumPlacement else 0) := by
        unfold iSum
        rw [alGet_alSet]
        by_cases h3 : q.1 = ck
        · subst h3
          rw [if_pos rfl, if_pos rfl]
          simp [h2]
        · rw [if_neg h3, if_neg h3]
          omega
      rw [hstep]
      omega

theorem isSome_mergeInnerFold (bag : List (String × ComboCounts)) :
    ∀ (dest : List (String × ComboCounts)) (ck : String),
      (alGet (bag.foldl
        (fun d q =>
          match alGet d q.1 with
          | none => alSet d q.1 q.2
          | some cur =>
              alSet d q.1
                ⟨cur.picks + q.2.picks, cur.wins + q.2.wins,
                  cur.sumPlacement + q.2.sumPlacement⟩)
        dest) ck).isSome = true ↔
      (alGet dest ck).isSome = true ∨ (alGet bag ck).isSome = true := by
  induction bag with
  | nil =>
    intro dest ck
    simp [alGet]
  | cons q qs ih =>
    intro dest ck
    rw [List.foldl_cons, alGet_cons]
    rcases h2 : alGet dest q.1 with _ | cur
    · rw [ih]
      rw [alGet_alSet]
      by_cases h3 : q.1 = ck
      · subst h3
        simp
      · rw [if_neg h3]
        simp [h3]
    · rw [ih]
      rw [alGet_alSet]
      by_cases h3 : q.1 = ck
      · subst h3
        simp [h2]
      · rw [if_neg h3]
        simp [h3]



theorem uPicksOf_cons_of_nodup {p : String × List (String × ComboCounts)}
    {rest : UnitComboBag} (h : NodupKeysL (p :: rest)) (cid ck : String) :
    uPicksOf (p :: rest) cid ck =
      (if p.1 = cid then iPicks p.2 ck else 0) + uPicksOf rest cid ck := by
  rw [uPicksOf_eq, uPicksOf_eq, alGet_cons]
  by_cases h3 : p.1 = cid
  · subst h3
    rw [if_pos rfl, if_pos rfl]
    have h4 : alGet rest p.1 = none :=
      alGet_eq_none_iff.mpr (List.nodup_cons.mp h).1
    simp [h4, iPicks, alGet]
  · rw [if_neg h3, if_neg h3]
    omega

theorem uWinsOf_cons_of_nodup {p : String × List (String × ComboCounts)}
    {rest : UnitComboBag} (h : NodupKeysL (p :: rest)) (cid ck : String) :
    uWinsOf (p :: rest) cid ck =
      (if p.1 = cid then iWins p.2 ck else 0) + uWinsOf rest cid ck := by
  rw [uWinsOf_eq, uWinsOf_eq, alGet_cons]
  by_cases h3 : p.1 = cid
  · subst h3
    rw [if_pos rfl, if_pos rfl]
    have h4 : alGet rest p.1 = none :=
      alGet_eq_none_iff.mpr (List.nodup_cons.mp h).1
    simp [h4, iWins, alGet]
  · rw [if_neg h3, if_neg h3]
    omega

theorem uSumOf_cons_of_nodup {p : String × List (String × ComboCounts)}
    {rest : UnitComboBag} (h : NodupKeysL (p :: rest)) (cid ck : String) :
    uSumOf (p :: rest) cid ck =
      (if p.1 = cid then iSum p.2 ck else 0) + uSumOf rest cid ck := by
  rw [uSumOf_eq, uSumOf_eq, alGet_cons]
  by_cases h3 : p.1 = cid
  · subst h3
    rw [if_pos rfl, if_pos rfl]
    have h4 : alGet rest p.1 = none :=
      alGet_eq_none_iff.mpr (List.nodup_cons.mp h).1
    simp [h4, iSum, alGet]
  · rw [if_neg h3, if_neg h3]
    omega

theorem mergeUnitCombos_uPicksOf {add : UnitComboBag} (ha : UCWF add) :
    ∀ (base : UnitComboBag) (cid ck : String),
      uPicksOf (mergeUnitCombos base add) cid ck =
        uPicksOf base cid ck + uPicksOf add cid ck := by
  unfold mergeUnitCombos
  induction add with
  | nil =>
    intro base cid ck
    simp [uPicksOf, alGet, iPicks]
  | cons p rest ih =>
    intro base cid ck
    have harest : UCWF rest :=
      ⟨(List.nodup_cons.mp ha.1).2, fun q hq => ha.2 q (List.mem_cons_of_mem _ hq)⟩
    have hpbag : NodupKeysL p.2 := ha.2 p (List.mem_cons_self _ _)
    rw [List.foldl_cons, uPicksOf_cons_of_nodup ha.1, ih harest]
    have hstep :
        uPicksOf (alSet base p.1
          (p.2.foldl
            (fun d q =>
              match alGet d q.1 with
              | none => alSet d q.1 q.2
              | some cur =>
                  alSet d q.1
                    ⟨cur.picks + q.2.picks, cur.wins + q.2.wins,
                      cur.sumPlacement + q.2.sumPlacement⟩)
            ((alGet base p.1).getD []))) cid ck =
          uPicksOf base cid ck + (if p.1 = cid then iPicks p.2 ck else 0) := by
      rw [uPicksOf_eq, outerBag_alSet]
      by_cases h3 : p.1 = cid
      · subst h3
        rw [if_pos rfl, if_pos rfl, iPicks_mergeInnerFold hpbag]
        rw [uPicksOf_eq]
      · rw [if_neg h3, if_neg h3, uPicksOf_eq]
        omega
    rw [hstep]
    omega

theorem mergeUnitCombos_uWinsOf {add : UnitComboBag} (ha : UCWF add) :
    ∀ (base : UnitComboBag) (cid ck : String),
      uWinsOf (mergeUnitCombos base add) cid ck =
        uWinsOf base cid ck + uWinsOf add cid ck := by
  unfold mergeUnitCombos
  induction add with
  | nil =>
    intro base cid ck
    simp [uWinsOf, alGet, iWins]
  | cons p rest ih =>
    intro base cid ck
    have harest : UCWF rest :=
      ⟨(List.nodup_cons.mp ha.1).2, fun q hq => ha.2 q (List.mem_cons_of_mem _ hq)⟩
    have hpbag : NodupKeysL p.2 := ha.2 p (List.mem_cons_self _ _)
    rw [List.foldl_cons, uWinsOf_cons_of_nodup ha.1, ih harest]
    have hstep :
        uWinsOf (alSet base p.1
          (p.2.foldl
            (fun d q =>
              match alGet d q.1 with
              | none => alSet d q.1 q.2
              | some cur =>
                  alSet d q.1
                    ⟨cur.picks + q.2.picks, cur.wins + q.2.wins,
                      cur.sumPlacement + q.2.sumPlacement⟩)
            ((alGet base p.1).getD []))) cid ck =
          uWinsOf base cid ck + (if p.1 = cid then iWins p.2 ck else 0) := by
      rw [uWinsOf_eq, outerBag_alSet]
      by_cases h3 : p.1 = cid
      · subst h3
        rw [if_pos rfl, if_pos rfl, iWins_mergeInnerFold hpbag]
        rw [uWinsOf_eq]
      · rw [if_neg h3, if_neg h3, uWinsOf_eq]
        omega
    rw [hstep]
    omega

theorem mergeUnitCombos_uSumOf {add : UnitComboBag} (ha : UCWF add) :
    ∀ (base : UnitComboBag) (cid ck : String),
      uSumOf (mergeUnitCombos base add) cid ck =
        uSumOf base cid ck + uSumOf add cid ck := by
  unfold mergeUnitCombos
  induction add with
  | nil =>
    intro base cid ck
    simp [uSumOf, alGet, iSum]
  | cons p rest ih =>
    intro base cid ck
    have harest : UCWF rest :=
      ⟨(List.nodup_cons.mp ha.1).2, fun q hq => ha.2 q (List.mem_cons_of_mem _ hq)⟩
    have hpbag : NodupKeysL p.2 := ha.2 p (List.mem_cons_self _ _)
    rw [List.foldl_cons, uSumOf_cons_of_nodup ha.1, ih harest]
    have hstep :
        uSumOf (alSet base p.1
          (p.2.foldl
            (fun d q =>
              match alGet d q.1 with
              | none => alSet d q.1 q.2
              | some cur =>
                  alSet d q.1
                    ⟨cur.picks + q.2.picks, cur.wins + q.2.wins,
                      cur.sumPlacement + q.2.sumPlacement⟩)
            ((alGet base p.1).getD []))) cid ck =
          uSumOf base cid ck + (if p.1 = cid then iSum p.2 ck else 0) := by
      rw [uSumOf_eq, outerBag_alSet]
      by_cases h3 : p.1 = cid
      · subst h3
        rw [if_pos rfl, if_pos rfl, iSum_mergeInnerFold hpbag]
        rw [uSumOf_eq]
      · rw [if_neg h3, if_neg h3, uSumOf_eq]
        omega
    rw [hstep]
    omega

theorem isSome_mergeUnitCombos_outer (base add : UnitComboBag) (cid : String) :
    (alGet (mergeUnitCombos base add) cid).isSome = true ↔
      (alGet base cid).isSome = true ∨ (alGet add cid).isSome = true := by
  unfold mergeUnitCombos
  induction add generalizing base with
  | nil => simp [alGet]
  | cons p rest ih =>
    rw [List.foldl_cons, alGet_cons]
    rw [ih, alGet_alSet]
    by_cases h3 : p.1 = cid
    · subst h3
      simp
    · rw [if_neg h3]
      simp [h3]

theorem isSome_mergeUnitCombos_inner {add : UnitComboBag} (ha : NodupKeysL add) :
    ∀ (base : UnitComboBag) (cid ck : String),
      (alGet ((alGet (mergeUnitCombos base add) cid).getD []) ck).isSome = true ↔
        (alGet ((alGet base cid).getD []) ck).isSome = true ∨
          (alGet ((alGet add cid).getD []) ck).isSome = true := by
  unfold mergeUnitCombos
  induction add with
  | nil =>
    intro base cid ck
    simp [alGet]
  | cons p rest ih =>
    intro base cid ck
    have harest : NodupKeysL rest := (List.nodup_cons.mp ha).2
    rw [List.foldl_cons, ih harest, alGet_cons]
    by_cases h3 : p.1 = cid
    · subst h3
      rw [if_pos rfl, outerBag_alSet, if_pos rfl, isSome_mergeInnerFold]
      have h4 : alGet rest p.1 = none :=
        alGet_eq_none_iff.mpr (List.nodup_cons.mp ha).1
      rw [h4]
      simp only [Option.getD_none]
      constructor
      · rintro ((h5 | h5) | h5)
        · exact Or.inl h5
        · exact Or.inr h5
        · rw [alGet_nil] at h5
          simp at h5
      · rintro (h5 | h5)
        · exact Or.inl (Or.inl h5)
        · exact Or.inl (Or.inr h5)
    · rw [if_neg h3, outerBag_alSet, if_neg h3]



/-- The state-level merge as the pipeline performs it: `mergeCompBuckets` on
the composition maps and `mergeUnitCombos` on the combo maps. -/
def mergeStates (st₁ st₂ : AggState) : AggState :=
  ⟨mergeCompBuckets st₁.compBuckets st₂.compBuckets,
   mergeUnitCombos st₁.unitCombos st₂.unitCombos⟩

theorem stateWF_mergeStates {st₁ st₂ : AggState} (h1 : StateWF st₁) (h2 : StateWF st₂) :
    StateWF (mergeStates st₁ st₂) :=
  ⟨compWF_merge h1.1 h2.1, ucwf_merge h1.2⟩

/-- C5: state merging is commutative and associative up to map-content
equality.  Aggregation always produces key-unique (`StateWF`) states, and
for any three such states the three merge orders agree extensionally: same
keys at every level, with `picks`, `wins`, `sumPlacement` and leaf item
counts summed. -/
theorem merge_assoc_comm :
    (∀ (ms : List MatchInfo) (patchFilter : String),
      StateWF (aggregateCountsAndCombos ms patchFilter)) ∧
    (∀ A B C : AggState, StateWF A → StateWF B → StateWF C →
      ExtEq (mergeStates (mergeStates A B) C) (mergeStates A (mergeStates B C)) ∧
      ExtEq (mergeStates (mergeStates A B) C) (mergeStates (mergeStates B A) C)) := by
  refine ⟨stateWF_aggregate, fun A B C hA hB hC => ?_⟩
  constructor
  · refine ⟨fun k => ?_, fun k => ?_, fun k => ?_, fun k => ?_, fun k cid item => ?_,
      fun cid => ?_, fun cid ck => ?_, fun cid ck => ?_, fun cid ck => ?_, fun cid ck => ?_⟩
    · dsimp only [mergeStates]
      rw [isSome_mergeCompBuckets, isSome_mergeCompBuckets, isSome_mergeCompBuckets,
        isSome_mergeCompBuckets]
      tauto
    · dsimp only [mergeStates]
      rw [mergeCompBuckets_cPicksOf hC.1.1, mergeCompBuckets_cPicksOf hB.1.1,
        mergeCompBuckets_cPicksOf (compWF_merge hB.1 hC.1).1, mergeCompBuckets_cPicksOf hC.1.1]
      omega
    · dsimp only [mergeStates]
      rw [mergeCompBuckets_cWinsOf hC.1.1, mergeCompBuckets_cWinsOf hB.1.1,
        mergeCompBuckets_cWinsOf (compWF_merge hB.1 hC.1).1, mergeCompBuckets_cWinsOf hC.1.1]
      omega
    · dsimp only [mergeStates]
      rw [mergeCompBuckets_cSumOf hC.1.1, mergeCompBuckets_cSumOf hB.1.1,
        mergeCompBuckets_cSumOf (compWF_merge hB.1 hC.1).1, mergeCompBuckets_cSumOf hC.1.1]
      omega
    · dsimp only [mergeStates]
      rw [mergeCompBuckets_cItemOf hC.1, mergeCompBuckets_cItemOf hB.1,
        mergeCompBuckets_cItemOf (compWF_merge hB.1 hC.1), mergeCompBuckets_cItemOf hC.1]
      omega
    · dsimp only [mergeStates]
      rw [isSome_mergeUnitCombos_outer, isSome_mergeUnitCombos_outer,
        isSome_mergeUnitCombos_outer, isSome_mergeUnitCombos_outer]
      tauto
    · dsimp only [mergeStates]
      rw [isSome_mergeUnitCombos_inner hC.2.1, isSome_mergeUnitCombos_inner hB.2.1,
        isSome_mergeUnitCombos_inner (ucwf_merge hB.2).1, isSome_mergeUnitCombos_inner hC.2.1]
      tauto
    · dsimp only [mergeStates]
      rw [mergeUnitCombos_uPicksOf hC.2, mergeUnitCombos_uPicksOf hB.2,
        mergeUnitCombos_uPicksOf (ucwf_merge hB.2), mergeUnitCombos_uPicksOf hC.2]
      omega
    · dsimp only [mergeStates]
      rw [mergeUnitCombos_uWinsOf hC.2, mergeUnitCombos_uWinsOf hB.2,
        mergeUnitCombos_uWinsOf (ucwf_merge hB.2), mergeUnitCombos_uWinsOf hC.2]
      omega
    · dsimp only [mergeStates]
      rw [mergeUnitCombos_uSumOf hC.2, mergeUnitCombos_uSumOf hB.2,
        mergeUnitCombos_uSumOf (ucwf_merge hB.2), mergeUnitCombos_uSumOf hC.2]
      omega
  · refine ⟨fun k => ?_, fun k => ?_, fun k => ?_, fun k => ?_, fun k cid item => ?_,
      fun cid => ?_, fun cid ck => ?_, fun cid ck => ?_, fun cid ck => ?_, fun cid ck => ?_⟩
    · dsimp only [mergeStates]
      rw [isSome_mergeCompBuckets, isSome_mergeCompBuckets, isSome_mergeCompBuckets,
        isSome_mergeCompBuckets]
      tauto
    · dsimp only [mergeStates]
      rw [mergeCompBuckets_cPicksOf hC.1.1, mergeCompBuckets_cPicksOf hB.1.1,
        mergeCompBuckets_cPicksOf hC.1.1, mergeCompBuckets_cPicksOf hA.1.1]
      omega
    · dsimp only [mergeStates]
      rw [mergeCompBuckets_cWinsOf hC.1.1, mergeCompBuckets_cWinsOf hB.1.1,
        mergeCompBuckets_cWinsOf hC.1.1, mergeCompBuckets_cWinsOf hA.1.1]
      omega
    · dsimp only [mergeStates]
      rw [mergeCompBuckets_cSumOf hC.1.1, mergeCompBuckets_cSumOf hB.1.1,
        mergeCompBuckets_cSumOf hC.1.1, mergeCompBuckets_cSumOf hA.1.1]
      omega
    · dsimp only [mergeStates]
      rw [mergeCompBuckets_cItemOf hC.1, mergeCompBuckets_cItemOf hB.1,
        mergeCompBuckets_cItemOf hC.1, mergeCompBuckets_cItemOf hA.1]
      omega
    · dsimp only [mergeStates]
      rw [isSome_mergeUnitCombos_outer, isSome_mergeUnitCombos_outer,
        isSome_mergeUnitCombos_outer, isSome_mergeUnitCombos_outer]
      tauto
    · dsimp only [mergeStates]
      rw [isSome_mergeUnitCombos_inner hC.2.1, isSome_mergeUnitCombos_inner hB.2.1,
        isSome_mergeUnitCombos_inner hC.2.1, isSome_mergeUnitCombos_inner hA.2.1]
      tauto
    · dsimp only [mergeStates]
      rw [mergeUnitCombos_uPicksOf hC.2, mergeUnitCombos_uPicksOf hB.2,
        mergeUnitCombos_uPicksOf hC.2, mergeUnitCombos_uPicksOf hA.2]
      omega
    · dsimp only [mergeStates]
      rw [mergeUnitCombos_uWinsOf hC.2, mergeUnitCombos_uWinsOf hB.2,
        mergeUnitCombos_uWinsOf hC.2, mergeUnitCombos_uWinsOf hA.2]
      omega
    · dsimp only [mergeStates]
      rw [mergeUnitCombos_uSumOf hC.2, mergeUnitCombos_uSumOf hB.2,
        mergeUnitCombos_uSumOf hC.2, mergeUnitCombos_uSumOf hA.2]
      omega

/-- Concrete key-unique states for the `merge_assoc_comm` witness. -/
def wStateA : AggState :=
  ⟨[("15.4::A:x", ⟨"15.4", "A:x", 2, 1, 4, [("A", [("x", 2)])], ["A"]⟩)],
   [("A", [("x|y|z", ⟨1, 1, 2⟩)])]⟩

/-- Second concrete state for the `merge_assoc_comm` witness. -/
def wStateB : AggState :=
  ⟨[("15.4::A:x", ⟨"15.4", "A:x", 3, 0, 12, [("A", [("x", 3)])], ["A"]⟩)],
   [("B", [("u|v|w", ⟨2, 0, 9⟩)])]⟩

/-- Third concrete state for the `merge_assoc_comm` witness. -/
def wStateC : AggState :=
  ⟨[("15.4::B:", ⟨"15.4", "B:", 1, 0, 5, [("B", [])], ["B"]⟩)],
   [("A", [("x|y|z", ⟨4, 2, 11⟩)])]⟩

/-- Witness for `merge_assoc_comm` at three concrete states. -/
theorem merge_assoc_comm_witness :
    ExtEq (mergeStates (mergeStates wStateA wStateB) wStateC)
        (mergeStates wStateA (mergeStates wStateB wStateC)) ∧
      ExtEq (mergeStates (mergeStates wStateA wStateB) wStateC)
        (mergeStates (mergeStates wStateB wStateA) wStateC) :=
  merge_assoc_comm.2 wStateA wStateB wStateC
    (by unfold StateWF CompWF UCWF NodupKeysL wStateA; decide)
    (by unfold StateWF CompWF UCWF NodupKeysL wStateB; decide)
    (by unfold StateWF CompWF UCWF NodupKeysL wStateC; decide)



/-- The C2 scenario input: one patch-15.4 match with three placement-1
participants holding unit `A` with items `x,y,z` and two placement-5
participants holding unit `A` with items `x,y`. -/
def mC2 : List MatchInfo :=
  [⟨some "15.4",
    [⟨some 1, [⟨"A", ["x", "y", "z"]⟩]⟩,
     ⟨some 1, [⟨"A", ["x", "y", "z"]⟩]⟩,
     ⟨some 1, [⟨"A", ["x", "y", "z"]⟩]⟩,
     ⟨some 5, [⟨"A", ["x", "y"]⟩]⟩,
     ⟨some 5, [⟨"A", ["x", "y"]⟩]⟩]⟩]

/-- C2 counterexample: the scenario does NOT yield a single composition
bucket for signature `"A"`: two buckets are produced, no bucket is keyed
`"15.4::A"`, and the signature of the unit is not `"A"` (items are part of
the signature). -/
theorem scenario_counterexample :
    (aggregateCountsAndCombos mC2 "").compBuckets.length = 2 ∧
    alGet (aggregateCountsAndCombos mC2 "").compBuckets "15.4::A" = none ∧
    compSignature [(⟨"A", ["x", "y", "z"]⟩ : Unit)] ≠ "A" := by
  decide

/-- C2 (amended): the scenario yields TWO composition buckets, keyed
`15.4::A:x.y.z` (picks 3, wins 3, sumPlacement 3) and `15.4::A:x.y`
(picks 2, wins 0, sumPlacement 10); finalization produces two rows with
`avg_placement` 1.0 / 5.0 and `winrate` 100.0 / 0.0 — not one 5-pick row
with average 2.6. The unit-combo side matches the claim: one bucket
`(A, "x|y|z")` with picks 3, wins 3, winrate 100.0. -/
theorem scenario_two_buckets :
    (aggregateCountsAndCombos mC2 "").compBuckets =
      [("15.4::A:x.y.z",
        ⟨"15.4", "A:x.y.z", 3, 3, 3, [("A", [("x", 3), ("y", 3), ("z", 3)])], ["A"]⟩),
       ("15.4::A:x.y",
        ⟨"15.4", "A:x.y", 2, 0, 10, [("A", [("x", 2), ("y", 2)])], ["A"]⟩)] ∧
    (aggregateCountsAndCombos mC2 "").unitCombos = [("A", [("x|y|z", ⟨3, 3, 3⟩)])] ∧
    finalizeComps (aggregateCountsAndCombos mC2 "").compBuckets 1 =
      [⟨"15.4", "A:x.y.z", 3, 1, 100, ["A"],
        [⟨"A", ["x", "y", "z"], [("x", 1/3), ("y", 1/3), ("z", 1/3)]⟩]⟩,
       ⟨"15.4", "A:x.y", 2, 5, 0, ["A"],
        [⟨"A", ["x", "y"], [("x", 1/2), ("y", 1/2)]⟩]⟩] ∧
    finalizeUnitCombos (aggregateCountsAndCombos mC2 "").unitCombos 1 10 =
      [⟨"A", [⟨["x", "y", "z"], 3, 1, 100⟩]⟩] := by
  have hbuck : (aggregateCountsAndCombos mC2 "").compBuckets =
      [("15.4::A:x.y.z",
        ⟨"15.4", "A:x.y.z", 3, 3, 3, [("A", [("x", 3), ("y", 3), ("z", 3)])], ["A"]⟩),
       ("15.4::A:x.y",
        ⟨"15.4", "A:x.y", 2, 0, 10, [("A", [("x", 2), ("y", 2)])], ["A"]⟩)] := by
    decide
  have huc : (aggregateCountsAndCombos mC2 "").unitCombos =
      [("A", [("x|y|z", ⟨3, 3, 3⟩)])] := by
    decide
  refine ⟨hbuck, huc, ?_, ?_⟩
  · rw [hbuck]
    norm_num [finalizeComps, compThreshold, compRowOf, freqFromCounts, round2, round1,
      List.insertionSort, List.orderedInsert, rowLE, freqGE, round_eq]
  · rw [huc]
    norm_num +decide [finalizeUnitCombos, comboThreshold, comboRowOf, round2, round1,
      List.insertionSort, List.orderedInsert, comboRowLE, splitStr, splitGo,
      List.isPrefixOf, round_eq]


end TFT
